import Mathlib

/-!
Verification of the barrier micro-benchmark library: shallow embeddings of
the centralized sense-reversing barrier, the static-tree barriers (local and
global departure), the tree-topology builders, and the confidence-interval
accumulator, together with theorems settling the specification claims.
-/

set_option maxHeartbeats 1000000

/-- C++ `std::memory_order` values used by the barriers. -/
inductive MemOrd
  | relaxed
  | acquire
  | release
deriving DecidableEq

/-- Memory events performed by `centralized_sense_reversing_barrier::await`:
atomic operations on the shared `counter` and `sense` cells, plus the final
flip of the caller's thread-local `local_sense`. -/
inductive CEvent
  | fetchAddCounter (ret : Nat) (ord : MemOrd)
  | loadCounter (ord : MemOrd)
  | storeCounter (v : Nat) (ord : MemOrd)
  | loadSense (v : Bool) (ord : MemOrd)
  | storeSense (v : Bool) (ord : MemOrd)
  | flipLocalSense
deriving DecidableEq

/-- The waiter's spin loop `while (sense.load(relaxed) != local_sense) {}`
followed by `sense.load(acquire)`.  `k` counts the failing iterations that
observed the old sense value; the last relaxed load observes `ls` and exits
the loop, after which one acquire load synchronizes. -/
def spinSenseEvents (ls : Bool) (k : Nat) : List CEvent :=
  List.replicate k (CEvent.loadSense (!ls) MemOrd.relaxed) ++
    [CEvent.loadSense ls MemOrd.relaxed, CEvent.loadSense ls MemOrd.acquire]

/-- Modelled from the spec: the compiled `centralized_sense_reversing_barrier.hpp`
named by the Makefile is not under `src/`; the backup header in `src/delay.hpp`
holds four `await` variants, all disabled by preprocessor guards.  The spec
designates the release/relaxed/acquire form as the active one, and this
definition follows that variant's body (variants 1 and 4 of the backup header,
which are textually identical): `pre := counter.fetch_add(1, release)`; if
`pre + 1 == num_threads` then `counter.load(acquire)`, `counter.store(0, relaxed)`,
`sense.store(local_sense, release)`; otherwise spin on `sense` with relaxed
loads until it equals `local_sense` and then `sense.load(acquire)`; finally
`local_sense = !local_sense`. -/
def centralized_await_events (numThreads pre : Nat) (ls : Bool) (k : Nat) : List CEvent :=
  CEvent.fetchAddCounter pre MemOrd.release ::
    ((if pre + 1 = numThreads then
        [CEvent.loadCounter MemOrd.acquire,
         CEvent.storeCounter 0 MemOrd.relaxed,
         CEvent.storeSense ls MemOrd.release]
      else
        spinSenseEvents ls k) ++ [CEvent.flipLocalSense])

/-- Shared mutable cells of the static-tree barriers: a child arrival slot
(`shared_flag` number `slot` in node `node`'s `arrival_children_flag` vector),
a node's own departure-`sense` cell, or the global `sense` flag of the
global-departure barrier. -/
inductive TCell
  | arrivalFlag (node slot : Nat)
  | senseCell (node : Nat)
  | globalSense
deriving DecidableEq

/-- Memory events performed by the tree-barrier `await` functions. -/
inductive TEvent
  | loadFlag (c : TCell) (v : Bool) (ord : MemOrd)
  | storeFlag (c : TCell) (v : Bool) (ord : MemOrd)
  | flipLocalSense (node : Nat)
deriving DecidableEq

/-- A spin loop `while (cell.load(relaxed) != target) {}` followed by one
`cell.load(acquire)`; `k` counts the failing relaxed iterations. -/
def spinFlagEvents (c : TCell) (target : Bool) (k : Nat) : List TEvent :=
  List.replicate k (TEvent.loadFlag c (!target) MemOrd.relaxed) ++
    [TEvent.loadFlag c target MemOrd.relaxed, TEvent.loadFlag c target MemOrd.acquire]

/-- The arrival loop shared textually by `static_tree_barrier::await` and
`static_tree_barrier_global_departure::await`:
`for (auto& flag : n->arrival_children_flag) { while (flag.flag.load(relaxed) != n->local_sense){} flag.flag.load(acquire); }`.
`ks i` counts the failing spin iterations on slot `i`. -/
def arrival_phase_events (idx nslots : Nat) (ls : Bool) (ks : Nat → Nat) : List TEvent :=
  (List.range nslots).flatMap fun i => spinFlagEvents (TCell.arrivalFlag idx i) ls (ks i)

/-- A `static_tree_barrier::node`: `idx` identifies which node's cells are its
own; `arrival_parent` is the (node, slot) the child signals on arrival (null at
the root); `num_arrival_slots` is `arrival_children_flag.size()`;
`departure_children` lists the nodes whose `sense` cells this node stores to on
departure. -/
structure TreeNode where
  idx : Nat
  arrival_parent : Option (Nat × Nat)
  num_arrival_slots : Nat
  departure_children : List Nat
deriving DecidableEq

/-- The function `static_tree_barrier::await` (the active relaxed version): wait for each
arrival child's flag, inform the parent and wait on the own `sense` cell when a
parent exists, signal the departure children, flip the local sense. -/
def static_tree_await_events (n : TreeNode) (ls : Bool) (ks : Nat → Nat) (kp : Nat) :
    List TEvent :=
  arrival_phase_events n.idx n.num_arrival_slots ls ks ++
    ((match n.arrival_parent with
      | some (p, s) =>
          TEvent.storeFlag (TCell.arrivalFlag p s) ls MemOrd.release ::
            spinFlagEvents (TCell.senseCell n.idx) ls kp
      | none => []) ++
      (n.departure_children.map fun d => TEvent.storeFlag (TCell.senseCell d) ls MemOrd.release) ++
      [TEvent.flipLocalSense n.idx])

/-- A `static_tree_barrier_global_departure::node`: as `TreeNode` but with no
departure list and no per-node `sense` cell. -/
structure GTreeNode where
  idx : Nat
  arrival_parent : Option (Nat × Nat)
  num_arrival_slots : Nat
deriving DecidableEq

/-- The function `static_tree_barrier_global_departure::await`: the same arrival loop; a
non-root stores to its parent slot and then spins on the single global `sense`
flag; the root release-stores its local sense into the global flag. -/
def global_departure_await_events (n : GTreeNode) (ls : Bool) (ks : Nat → Nat) (kg : Nat) :
    List TEvent :=
  arrival_phase_events n.idx n.num_arrival_slots ls ks ++
    ((match n.arrival_parent with
      | some (p, s) =>
          TEvent.storeFlag (TCell.arrivalFlag p s) ls MemOrd.release ::
            spinFlagEvents TCell.globalSense ls kg
      | none => [TEvent.storeFlag TCell.globalSense ls MemOrd.release]) ++
      [TEvent.flipLocalSense n.idx])

/-- Program counter of a thread inside the centralized barrier's `await`:
`arrive` = about to `fetch_add` the counter; `syncld` = releaser about to do
the acquire load of the counter; `reset` = about to store 0 relaxed; `signal`
= about to release-store the local sense into `sense`; `spin` = waiter looping
on `sense`; `flip` = about to flip the local sense; `done` = all episodes
finished. -/
inductive CPc
  | arrive
  | syncld
  | reset
  | signal
  | spin
  | flip
  | done
deriving DecidableEq

/-- A worker thread of the centralized-barrier benchmark: its program counter,
its thread-local `local_sense`, and the number of episodes completed. -/
structure CThread where
  pc : CPc
  ls : Bool
  ep : Nat
deriving DecidableEq

/-- Shared state of the centralized barrier (`counter`, `sense`) together with
the `N` worker threads. -/
structure CState (N : Nat) where
  counter : Nat
  sense : Bool
  thr : Fin N → CThread

/-- Interleaved small-step semantics of `N` threads each executing `E`
episodes of `workload(); await()` against one
`centralized_sense_reversing_barrier`.  Each step is one atomic memory
operation of the active `await` variant. -/
inductive CStep (N E : Nat) : CState N → CState N → Prop
  | arrive (s : CState N) (t : Fin N) (h : (s.thr t).pc = CPc.arrive) :
      CStep N E s ⟨s.counter + 1, s.sense,
        Function.update s.thr t
          { s.thr t with pc := if s.counter + 1 = N then CPc.syncld else CPc.spin }⟩
  | syncld (s : CState N) (t : Fin N) (h : (s.thr t).pc = CPc.syncld) :
      CStep N E s ⟨s.counter, s.sense,
        Function.update s.thr t { s.thr t with pc := CPc.reset }⟩
  | reset (s : CState N) (t : Fin N) (h : (s.thr t).pc = CPc.reset) :
      CStep N E s ⟨0, s.sense,
        Function.update s.thr t { s.thr t with pc := CPc.signal }⟩
  | signal (s : CState N) (t : Fin N) (h : (s.thr t).pc = CPc.signal) :
      CStep N E s ⟨s.counter, (s.thr t).ls,
        Function.update s.thr t { s.thr t with pc := CPc.flip }⟩
  | spinFail (s : CState N) (t : Fin N) (h : (s.thr t).pc = CPc.spin)
      (hne : s.sense ≠ (s.thr t).ls) : CStep N E s s
  | spinPass (s : CState N) (t : Fin N) (h : (s.thr t).pc = CPc.spin)
      (heq : s.sense = (s.thr t).ls) :
      CStep N E s ⟨s.counter, s.sense,
        Function.update s.thr t { s.thr t with pc := CPc.flip }⟩
  | flip (s : CState N) (t : Fin N) (h : (s.thr t).pc = CPc.flip) :
      CStep N E s ⟨s.counter, s.sense,
        Function.update s.thr t
          ⟨if (s.thr t).ep + 1 < E then CPc.arrive else CPc.done,
           !(s.thr t).ls, (s.thr t).ep + 1⟩⟩

/-- Initial state: `counter = 0`, `sense = true`, every thread with local
sense `false`, zero completed episodes, about to arrive (or already done when
`E = 0`). -/
def CInit (N E : Nat) : CState N :=
  ⟨0, true, fun _ => ⟨if 0 < E then CPc.arrive else CPc.done, false, 0⟩⟩

/-- States reachable by interleaving the threads from the initial state. -/
def CReach (N E : Nat) (s : CState N) : Prop :=
  Relation.ReflTransGen (CStep N E) (CInit N E) s

/-- Parity of a number of completed episodes, as a boolean. -/
def epOdd (n : Nat) : Bool := decide (n % 2 = 1)

/-- Value of the shared `sense` flag after `r` releases: initially `true`,
then alternating. -/
def senseOfRound (r : Nat) : Bool := decide (r % 2 = 0)

/-- A lagging thread of round `r`: it arrived during episode `r` (its
completed-episode count is `r - 1`) and is spinning on the already-flipped
sense or about to flip its local sense. -/
def lagThread (r : Nat) (t : CThread) : Prop :=
  1 ≤ r ∧ t.ep = r - 1 ∧ (t.pc = CPc.spin ∨ t.pc = CPc.flip)

/-- A thread participating in episode `r + 1`: it completed `r` episodes and
is anywhere between arrival and the release sequence. -/
def curThread (E r : Nat) (t : CThread) : Prop :=
  t.ep = r ∧ r < E ∧ (t.pc = CPc.arrive ∨ t.pc = CPc.spin ∨ t.pc = CPc.syncld ∨
    t.pc = CPc.reset ∨ t.pc = CPc.signal)

/-- A finished thread: all `E` episodes completed. -/
def doneThread (E r : Nat) (t : CThread) : Prop :=
  t.ep = r ∧ r = E ∧ t.pc = CPc.done

/-- A thread counted in the arrival counter: it has arrived for episode
`r + 1` and is spinning. -/
def curSpin (r : Nat) (t : CThread) : Prop :=
  t.ep = r ∧ t.pc = CPc.spin

/-- The releaser of episode `r + 1` before it resets the counter. -/
def relPre (r : Nat) (t : CThread) : Prop :=
  t.ep = r ∧ (t.pc = CPc.syncld ∨ t.pc = CPc.reset)

/-- The releaser of episode `r + 1` after resetting the counter but before
storing the new sense. -/
def relPost (r : Nat) (t : CThread) : Prop :=
  t.ep = r ∧ t.pc = CPc.signal

instance curSpinDec (r : Nat) (t : CThread) : Decidable (curSpin r t) :=
  inferInstanceAs (Decidable (t.ep = r ∧ t.pc = CPc.spin))

instance relPreDec (r : Nat) (t : CThread) : Decidable (relPre r t) :=
  inferInstanceAs (Decidable (t.ep = r ∧ (t.pc = CPc.syncld ∨ t.pc = CPc.reset)))

instance relPostDec (r : Nat) (t : CThread) : Decidable (relPost r t) :=
  inferInstanceAs (Decidable (t.ep = r ∧ t.pc = CPc.signal))

/-- Number of threads spinning for episode `r + 1`. -/
def spinCount {N : Nat} (r : Nat) (f : Fin N → CThread) : Nat :=
  (Finset.univ.filter fun u => curSpin r (f u)).card

/-- Global invariant of the centralized-barrier machine: there is a round
number `r` (the number of completed releases) such that the sense flag holds
the round parity, every thread's local sense is the parity of its completed
episodes, every thread is lagging in round `r`, participating in episode
`r + 1`, or done, and the counter agrees with the thread positions: it counts
the episode-`r + 1` spinners unless a releaser is mid-release, in which case
it is `N` before the reset and `0` after, with all other threads spinning. -/
def CInv (N E : Nat) (s : CState N) : Prop :=
  ∃ r, r ≤ E ∧ s.sense = senseOfRound r ∧
    (∀ u, (s.thr u).ls = epOdd (s.thr u).ep) ∧
    (∀ u, lagThread r (s.thr u) ∨ curThread E r (s.thr u) ∨ doneThread E r (s.thr u)) ∧
    ((∀ u, ¬ relPre r (s.thr u) ∧ ¬ relPost r (s.thr u)) → s.counter = spinCount r s.thr) ∧
    (∀ u, relPre r (s.thr u) → s.counter = N ∧ ∀ v, v ≠ u → curSpin r (s.thr v)) ∧
    (∀ u, relPost r (s.thr u) → s.counter = 0 ∧ ∀ v, v ≠ u → curSpin r (s.thr v))

/-- The effect of a tree-barrier event trace on the thread-local sense of node
`idx`: only `flipLocalSense idx` events change it. -/
def local_sense_updates (idx : Nat) (evs : List TEvent) (ls : Bool) : Bool :=
  evs.foldl (fun b e => match e with
    | TEvent.flipLocalSense j => if j = idx then !b else b
    | _ => b) ls

/-- Intermediate states of a complete run of one thread through two episodes
(`N = 1`, `E = 2`) of the centralized-barrier machine. -/
def c4s0 : CState 1 := CInit 1 2

def c4s1 : CState 1 :=
  ⟨1, true, Function.update c4s0.thr 0 { c4s0.thr 0 with pc := CPc.syncld }⟩

def c4s2 : CState 1 :=
  ⟨1, true, Function.update c4s1.thr 0 { c4s1.thr 0 with pc := CPc.reset }⟩

def c4s3 : CState 1 :=
  ⟨0, true, Function.update c4s2.thr 0 { c4s2.thr 0 with pc := CPc.signal }⟩

def c4s4 : CState 1 :=
  ⟨0, false, Function.update c4s3.thr 0 { c4s3.thr 0 with pc := CPc.flip }⟩

def c4s5 : CState 1 :=
  ⟨0, false, Function.update c4s4.thr 0 ⟨CPc.arrive, true, 1⟩⟩

def c4s6 : CState 1 :=
  ⟨1, false, Function.update c4s5.thr 0 { c4s5.thr 0 with pc := CPc.syncld }⟩

def c4s7 : CState 1 :=
  ⟨1, false, Function.update c4s6.thr 0 { c4s6.thr 0 with pc := CPc.reset }⟩

def c4s8 : CState 1 :=
  ⟨0, false, Function.update c4s7.thr 0 { c4s7.thr 0 with pc := CPc.signal }⟩

def c4s9 : CState 1 :=
  ⟨0, true, Function.update c4s8.thr 0 { c4s8.thr 0 with pc := CPc.flip }⟩

def c4s10 : CState 1 :=
  ⟨0, true, Function.update c4s9.thr 0 ⟨CPc.done, false, 2⟩⟩

/-- The wiring a tree-layout builder produces: `n` nodes, for each node its
`arrival_parent` as a (parent node, slot) pair (`none` at the root), the size
of its `arrival_children_flag` vector, and its `departure_children` as the
indices of the nodes whose `sense` cells it signals. -/
structure Layout where
  n : Nat
  ap : List (Option (Nat × Nat))
  nslots : List Nat
  ds : List (List Nat)
deriving DecidableEq

/-- The wiring of the global-departure builder: as `Layout` but the node type
has no departure list. -/
structure GLayout where
  n : Nat
  ap : List (Option (Nat × Nat))
  nslots : List Nat
deriving DecidableEq

def good_layout_1 : Layout := ⟨1, [none], [0], [[]]⟩

def good_layout_2 : Layout := ⟨2, [none, some (0, 0)], [1, 0], [[1], []]⟩

def good_layout_3 : Layout :=
  ⟨3, [none, some (0, 0), some (0, 1)], [2, 0, 0], [[1, 2], [], []]⟩

def good_layout_4 : Layout :=
  ⟨4, [none, some (0, 0), some (0, 1), some (2, 0)], [2, 0, 1, 0],
    [[1, 2], [], [3], []]⟩

def good_layout_5 : Layout :=
  ⟨5, [none, some (4, 0), some (0, 1), some (2, 0), some (0, 0)], [2, 0, 1, 0, 1],
    [[2, 4], [], [3], [], [1]]⟩

def good_layout_6 : Layout :=
  ⟨6, [none, some (4, 0), some (0, 1), some (2, 0), some (0, 0), some (4, 1)],
    [2, 0, 1, 0, 2, 0], [[2, 4], [], [3], [], [1, 5], []]⟩

def good_layout_7 : Layout :=
  ⟨7, [none, some (4, 0), some (0, 1), some (2, 0), some (0, 0), some (4, 1),
      some (2, 1)],
    [2, 0, 2, 0, 2, 0, 0], [[2, 4], [], [3, 6], [], [1, 5], [], []]⟩

def good_layout_8 : Layout :=
  ⟨8, [none, some (4, 0), some (0, 1), some (2, 0), some (0, 0), some (4, 1),
      some (2, 1), some (3, 0)],
    [2, 0, 2, 1, 2, 0, 0, 0], [[2, 4], [], [3, 6], [7], [1, 5], [], [], []]⟩

/-- The builder `static_tree_layout_good_locality` from the benchmark driver: for
`N ∈ [1,8]` the hard-coded wiring of that case of the `switch`; any other `N`
hits `assert(0)` and aborts, modelled as `none`. -/
def static_tree_layout_good_locality : Nat → Option Layout
  | 1 => some good_layout_1
  | 2 => some good_layout_2
  | 3 => some good_layout_3
  | 4 => some good_layout_4
  | 5 => some good_layout_5
  | 6 => some good_layout_6
  | 7 => some good_layout_7
  | 8 => some good_layout_8
  | _ => none

def bad_layout_1 : Layout := ⟨1, [none], [0], [[]]⟩

def bad_layout_2 : Layout := ⟨2, [none, some (0, 0)], [1, 0], [[1], []]⟩

def bad_layout_3 : Layout :=
  ⟨3, [none, some (0, 0), some (0, 1)], [2, 0, 0], [[1, 2], [], []]⟩

def bad_layout_4 : Layout :=
  ⟨4, [none, some (2, 0), some (0, 1), some (0, 0)], [2, 0, 1, 0],
    [[3, 2], [], [1], []]⟩

def bad_layout_5 : Layout :=
  ⟨5, [none, some (2, 0), some (0, 1), some (0, 0), some (3, 0)], [2, 0, 1, 1, 0],
    [[3, 2], [], [1], [4], []]⟩

def bad_layout_6 : Layout :=
  ⟨6, [none, some (2, 0), some (0, 1), some (0, 0), some (3, 0), some (2, 1)],
    [2, 0, 2, 1, 0, 0], [[3, 2], [], [1, 5], [4], [], []]⟩

def bad_layout_7 : Layout :=
  ⟨7, [none, some (2, 0), some (0, 1), some (0, 0), some (3, 0), some (2, 1),
      some (4, 0)],
    [2, 0, 2, 1, 1, 0, 0], [[3, 2], [], [1, 5], [4], [6], [], []]⟩

def bad_layout_8 : Layout :=
  ⟨8, [none, some (2, 0), some (0, 1), some (0, 0), some (3, 0), some (2, 1),
      some (4, 0), some (4, 1)],
    [2, 0, 2, 1, 2, 0, 0, 0], [[3, 2], [], [1, 5], [4], [6, 7], [], [], []]⟩

/-- The builder `static_tree_layout_bad_locality` from the benchmark driver. -/
def static_tree_layout_bad_locality : Nat → Option Layout
  | 1 => some bad_layout_1
  | 2 => some bad_layout_2
  | 3 => some bad_layout_3
  | 4 => some bad_layout_4
  | 5 => some bad_layout_5
  | 6 => some bad_layout_6
  | 7 => some bad_layout_7
  | 8 => some bad_layout_8
  | _ => none

def gd_layout_1 : GLayout := ⟨1, [none], [0]⟩

def gd_layout_2 : GLayout := ⟨2, [none, some (0, 0)], [1, 0]⟩

def gd_layout_3 : GLayout := ⟨3, [none, some (0, 0), some (0, 1)], [2, 0, 0]⟩

def gd_layout_4 : GLayout :=
  ⟨4, [none, some (0, 0), some (0, 1), some (2, 0)], [2, 0, 1, 0]⟩

def gd_layout_5 : GLayout :=
  ⟨5, [none, some (4, 0), some (0, 1), some (2, 0), some (0, 0)], [2, 0, 1, 0, 1]⟩

def gd_layout_6 : GLayout :=
  ⟨6, [none, some (4, 0), some (0, 1), some (2, 0), some (0, 0), some (4, 1)],
    [2, 0, 1, 0, 2, 0]⟩

def gd_layout_7 : GLayout :=
  ⟨7, [none, some (4, 0), some (0, 1), some (2, 0), some (0, 0), some (4, 1),
      some (2, 1)],
    [2, 0, 2, 0, 2, 0, 0]⟩

def gd_layout_8 : GLayout :=
  ⟨8, [none, some (4, 0), some (0, 1), some (2, 0), some (0, 0), some (4, 1),
      some (2, 1), some (3, 0)],
    [2, 0, 2, 1, 2, 0, 0, 0]⟩

/-- The builder `static_tree_global_departure_layout_good_locality` from the benchmark
driver. -/
def static_tree_global_departure_layout_good_locality : Nat → Option GLayout
  | 1 => some gd_layout_1
  | 2 => some gd_layout_2
  | 3 => some gd_layout_3
  | 4 => some gd_layout_4
  | 5 => some gd_layout_5
  | 6 => some gd_layout_6
  | 7 => some gd_layout_7
  | 8 => some gd_layout_8
  | _ => none

/-- The node that occupies arrival slot `s` of node `p`: the unique `c` whose
`arrival_parent` is `(p, s)`. -/
def slot_child (n : Nat) (ap : List (Option (Nat × Nat))) (p s : Nat) : Option Nat :=
  (List.range n).find? fun c => decide (ap.getD c none = some (p, s))

/-- The arrival children of node `p` listed by slot index (`n` marks a slot no
child claims). -/
def children_by_slot (n : Nat) (ap : List (Option (Nat × Nat))) (nslots : List Nat)
    (p : Nat) : List Nat :=
  (List.range (nslots.getD p 0)).map fun s => (slot_child n ap p s).getD n

/-- The arrival-tree shapes listed literally in the spec (children by slot for
each node 0..N-1). -/
def spec_good_shape : Nat → List (List Nat)
  | 1 => [[]]
  | 2 => [[1], []]
  | 3 => [[1, 2], [], []]
  | 4 => [[1, 2], [], [3], []]
  | 5 => [[4, 2], [], [3], [], [1]]
  | 6 => [[4, 2], [], [3], [], [1, 5], []]
  | 7 => [[4, 2], [], [3, 6], [], [1, 5], [], []]
  | 8 => [[4, 2], [], [3, 6], [7], [1, 5], [], [], []]
  | _ => []

/-- Holds (as `true`) when node `c`'s `arrival_parent` names an in-range parent and an
in-range slot of that parent's arrival-slot array. -/
def slot_in_range (L : Layout) (N c : Nat) : Bool :=
  match L.ap.getD c none with
  | some (p, s) => decide (p < N) && decide (s < L.nslots.getD p 0)
  | none => false

/-- The arrival parent of node `i` (node index only, slot dropped). -/
def parent_idx (L : Layout) (i : Nat) : Option Nat :=
  (L.ap.getD i none).map Prod.fst

/-- Depth of a node along its parent chain, with explicit fuel. -/
def depthP (par : Nat → Option Nat) : Nat → Nat → Nat
  | 0, _ => 0
  | fuel + 1, i =>
      match par i with
      | none => 0
      | some p => depthP par fuel p + 1

/-- Depth of node `i` in the arrival tree of a layout. -/
def depth_of (L : Layout) (i : Nat) : Nat := depthP (parent_idx L) L.n i

/-- Depth of the arrival tree: the maximum node depth. -/
def tree_depth (L : Layout) : Nat :=
  ((List.range L.n).map (depth_of L)).foldr max 0

/-- Number of arrival edges (non-root nodes). -/
def edge_count (L : Layout) : Nat :=
  (List.range L.n).countP fun i => decide (L.ap.getD i none ≠ none)

/-- Number of nodes at depth `d` of the arrival tree. -/
def count_at_depth (L : Layout) (d : Nat) : Nat :=
  (List.range L.n).countP fun i => depth_of L i == d

/-- States that `π` is a relabelling of participant indices carrying the arrival tree of
`L1` onto the arrival tree of `L2`: a permutation of `0..n-1` (as a nodup
list of in-range entries of full length) that commutes with the
parent relation. -/
def iso_by (L1 L2 : Layout) (π : List Nat) : Prop :=
  L1.n = L2.n ∧ π.length = L1.n ∧ π.Nodup ∧ (∀ x, x ∈ π → x < L1.n) ∧
    ∀ i, i < L1.n →
      parent_idx L2 (π.getD i 0) = (parent_idx L1 i).map fun p => π.getD p 0

instance iso_by_dec (L1 L2 : Layout) (π : List Nat) : Decidable (iso_by L1 L2 π) := by
  unfold iso_by
  infer_instance

/-- Program counter of a thread inside the static-tree barrier's `await`:
`aw k` = spinning on (or advancing past) arrival slot `k`; `par` = about to
signal the parent (or skip, at the root); `dspin` = spinning on the own
departure-`sense` cell; `dep j` = storing to departure child `j`; `flip` =
about to flip the local sense and start the next episode. -/
inductive TPc
  | aw (k : Nat)
  | par
  | dspin
  | dep (j : Nat)
  | flip
deriving DecidableEq

/-- Shared state of the static-tree barrier system: every node's
departure-`sense` cell, every arrival flag (node, slot), every thread-local
sense, and every thread's program counter. -/
structure TreeState where
  senses : Nat → Bool
  flags : Nat → Nat → Bool
  ls : Nat → Bool
  pc : Nat → TPc

/-- Interleaved small-step semantics of the static-tree barrier wired by
layout `L`, each thread looping episodes of `await` forever.  Each step is
one memory operation of `static_tree_barrier::await`. -/
inductive TreeStep (L : Layout) : TreeState → TreeState → Prop
  | awNext (s : TreeState) (i : Nat) (hi : i < L.n) (k : Nat)
      (hpc : s.pc i = TPc.aw k) (hk : k = L.nslots.getD i 0) :
      TreeStep L s { s with pc := Function.update s.pc i TPc.par }
  | awFail (s : TreeState) (i : Nat) (hi : i < L.n) (k : Nat)
      (hpc : s.pc i = TPc.aw k) (hk : k < L.nslots.getD i 0)
      (hne : s.flags i k ≠ s.ls i) : TreeStep L s s
  | awPass (s : TreeState) (i : Nat) (hi : i < L.n) (k : Nat)
      (hpc : s.pc i = TPc.aw k) (hk : k < L.nslots.getD i 0)
      (heq : s.flags i k = s.ls i) :
      TreeStep L s { s with pc := Function.update s.pc i (TPc.aw (k + 1)) }
  | parSome (s : TreeState) (i : Nat) (hi : i < L.n) (p sl : Nat)
      (hpc : s.pc i = TPc.par) (hap : L.ap.getD i none = some (p, sl)) :
      TreeStep L s { s with
        flags := Function.update s.flags p (Function.update (s.flags p) sl (s.ls i)),
        pc := Function.update s.pc i TPc.dspin }
  | parNone (s : TreeState) (i : Nat) (hi : i < L.n)
      (hpc : s.pc i = TPc.par) (hap : L.ap.getD i none = none) :
      TreeStep L s { s with pc := Function.update s.pc i (TPc.dep 0) }
  | dspinFail (s : TreeState) (i : Nat) (hi : i < L.n)
      (hpc : s.pc i = TPc.dspin) (hne : s.senses i ≠ s.ls i) : TreeStep L s s
  | dspinPass (s : TreeState) (i : Nat) (hi : i < L.n)
      (hpc : s.pc i = TPc.dspin) (heq : s.senses i = s.ls i) :
      TreeStep L s { s with pc := Function.update s.pc i (TPc.dep 0) }
  | depStore (s : TreeState) (i : Nat) (hi : i < L.n) (j : Nat)
      (hpc : s.pc i = TPc.dep j) (hj : j < (L.ds.getD i []).length) :
      TreeStep L s { s with
        senses := Function.update s.senses ((L.ds.getD i []).getD j 0) (s.ls i),
        pc := Function.update s.pc i (TPc.dep (j + 1)) }
  | depNext (s : TreeState) (i : Nat) (hi : i < L.n) (j : Nat)
      (hpc : s.pc i = TPc.dep j) (hj : j = (L.ds.getD i []).length) :
      TreeStep L s { s with pc := Function.update s.pc i TPc.flip }
  | flip (s : TreeState) (i : Nat) (hi : i < L.n) (hpc : s.pc i = TPc.flip) :
      TreeStep L s { s with
        ls := Function.update s.ls i (!s.ls i),
        pc := Function.update s.pc i (TPc.aw 0) }

/-- Initial tree-barrier state as the builders create it: every
departure-`sense` cell `true`, every arrival flag `true`, every local sense
`false`, every thread at the start of its first arrival loop. -/
def TreeInit : TreeState :=
  ⟨fun _ => true, fun _ _ => true, fun _ => false, fun _ => TPc.aw 0⟩

/-- States reachable by interleaving the tree-barrier threads. -/
def TreeReach (L : Layout) (s : TreeState) : Prop :=
  Relation.ReflTransGen (TreeStep L) TreeInit s

/-- No node's departure list names node 0's `sense` cell. -/
def root_sense_unwritten (L : Layout) : Prop :=
  ∀ i, i < L.n → (0 : Nat) ∉ L.ds.getD i []

instance root_sense_unwritten_dec (L : Layout) : Decidable (root_sense_unwritten L) := by
  unfold root_sense_unwritten
  infer_instance

/-- The table `confidence_interval::t_critical_value`: the tabulated 99.9% critical
values of the t-distribution; per the source comment, entry `v - 1` holds the
value for `v` degrees of freedom, `v` in 1..30. -/
def t_critical_value : List ℚ :=
  [6366/10, 3160/100, 1292/100, 8610/1000, 6869/1000, 5959/1000, 5408/1000,
   5041/1000, 4781/1000, 4587/1000, 4437/1000, 4318/1000, 4221/1000, 4140/1000,
   4073/1000, 4015/1000, 3965/1000, 3922/1000, 3883/1000, 3850/1000, 3819/1000,
   3792/1000, 3768/1000, 3745/1000, 3725/1000, 3707/1000, 3690/1000, 3674/1000,
   3659/1000, 3646/1000]

/-- The `size_t` subtraction `n - 1` as the C++ code performs it on
`samples.size()`: wraps to `2^64 - 1` at `n = 0`. -/
def size_t_sub_one (n : Nat) : Nat := (n + (2 ^ 64 - 1)) % 2 ^ 64

/-- The method `confidence_interval::add`: `samples.push_back(v)`, unconditionally. -/
def confidence_interval_add (samples : List ℝ) (v : ℝ) : List ℝ := samples ++ [v]

/-- The method `confidence_interval::mean`: the sample mean `m`, the unbiased variance
`s` (dividing by `size_t(n - 1)`), and the triple
`(m - h, m, m + h)` with `h = t_critical_value[n - 1] * (sqrt(s) / sqrt(n))`;
the out-of-bounds table read is undefined behaviour, modelled as `none`. -/
noncomputable def confidence_interval_mean (samples : List ℝ) :
    Option (ℝ × ℝ × ℝ) :=
  (t_critical_value.get? (size_t_sub_one samples.length)).map fun (t : ℚ) =>
    let n := samples.length
    let m := samples.sum / (n : ℝ)
    let s := ((samples.map fun x => (x - m) * (x - m)).sum) /
      ((size_t_sub_one n : Nat) : ℝ)
    let margin := (t : ℝ) * (Real.sqrt s / Real.sqrt (n : ℝ))
    (m - margin, m, m + margin)

/-- Sample mean as the spec words it. -/
noncomputable def spec_sample_mean (xs : List ℝ) : ℝ := xs.sum / (xs.length : ℝ)

/-- Unbiased sample variance as the spec words it (divide by `n - 1`). -/
noncomputable def spec_unbiased_variance (xs : List ℝ) : ℝ :=
  ((xs.map fun x => (x - spec_sample_mean xs) * (x - spec_sample_mean xs)).sum) /
    ((xs.length : ℝ) - 1)

/-- The ten samples of the spec's concrete confidence-interval scenario. -/
noncomputable def ci_samples10 : List ℝ := [100, 102, 98, 101, 99, 100, 103, 97, 100, 100]

/-- C1: the centralized sense-reversing barrier's active `await` performs, in
order: `pre := counter.fetch_add(1, release)`; if `pre + 1 = N` the caller is
the releaser and performs an acquire load of the counter, a relaxed store of 0
into the counter, then a release store of its local sense `ls` into `sense`;
otherwise the caller spins with relaxed loads of `sense` until it equals `ls`
and then performs one acquire load of `sense`; finally every caller flips `ls`. -/
theorem centralized_await_order (N pre : Nat) (ls : Bool) (k : Nat) :
    (pre + 1 = N →
      centralized_await_events N pre ls k =
        [CEvent.fetchAddCounter pre MemOrd.release,
         CEvent.loadCounter MemOrd.acquire,
         CEvent.storeCounter 0 MemOrd.relaxed,
         CEvent.storeSense ls MemOrd.release,
         CEvent.flipLocalSense]) ∧
    (pre + 1 ≠ N →
      centralized_await_events N pre ls k =
        CEvent.fetchAddCounter pre MemOrd.release ::
          (List.replicate k (CEvent.loadSense (!ls) MemOrd.relaxed) ++
            [CEvent.loadSense ls MemOrd.relaxed,
             CEvent.loadSense ls MemOrd.acquire,
             CEvent.flipLocalSense])) := by
  constructor
  · intro h
    simp [centralized_await_events, h]
  · intro h
    simp [centralized_await_events, h, spinSenseEvents]

/-- Witness for `centralized_await_order` at `N = 2`: the releaser case at
`pre = 1` and the waiter case at `pre = 0` with one failing spin iteration. -/
theorem centralized_await_order_witness :
    centralized_await_events 2 1 false 0 =
      [CEvent.fetchAddCounter 1 MemOrd.release,
       CEvent.loadCounter MemOrd.acquire,
       CEvent.storeCounter 0 MemOrd.relaxed,
       CEvent.storeSense false MemOrd.release,
       CEvent.flipLocalSense] ∧
    centralized_await_events 2 0 false 1 =
      CEvent.fetchAddCounter 0 MemOrd.release ::
        (List.replicate 1 (CEvent.loadSense true MemOrd.relaxed) ++
          [CEvent.loadSense false MemOrd.relaxed,
           CEvent.loadSense false MemOrd.acquire,
           CEvent.flipLocalSense]) :=
  ⟨(centralized_await_order 2 1 false 0).1 (by decide),
   (centralized_await_order 2 0 false 1).2 (by decide)⟩

lemma storeFlag_not_mem_spinFlagEvents (c : TCell) (t : Bool) (k : Nat) (c' : TCell)
    (v : Bool) (o : MemOrd) : TEvent.storeFlag c' v o ∉ spinFlagEvents c t k := by
  intro h
  simp only [spinFlagEvents, List.mem_append, List.mem_replicate, List.mem_cons,
    List.mem_singleton] at h
  rcases h with ⟨_, h⟩ | h | h <;> exact absurd h (by simp)

lemma storeFlag_not_mem_arrival (idx nslots : Nat) (ls : Bool) (ks : Nat → Nat)
    (c : TCell) (v : Bool) (o : MemOrd) :
    TEvent.storeFlag c v o ∉ arrival_phase_events idx nslots ls ks := by
  intro h
  simp only [arrival_phase_events, List.mem_flatMap, List.mem_range] at h
  obtain ⟨i, -, hmem⟩ := h
  exact storeFlag_not_mem_spinFlagEvents _ _ _ _ _ _ hmem

lemma flip_not_mem_spinFlagEvents (c : TCell) (t : Bool) (k : Nat) (j : Nat) :
    TEvent.flipLocalSense j ∉ spinFlagEvents c t k := by
  intro h
  simp only [spinFlagEvents, List.mem_append, List.mem_replicate, List.mem_cons,
    List.mem_singleton] at h
  rcases h with ⟨_, h⟩ | h | h <;> exact absurd h (by simp)

lemma static_tree_store_mem (n : TreeNode) (ls : Bool) (ks : Nat → Nat) (kp : Nat)
    (c : TCell) (v : Bool) (o : MemOrd)
    (hmem : TEvent.storeFlag c v o ∈ static_tree_await_events n ls ks kp) :
    (∃ p s, n.arrival_parent = some (p, s) ∧ c = TCell.arrivalFlag p s ∧ v = ls) ∨
    (∃ d, d ∈ n.departure_children ∧ c = TCell.senseCell d ∧ v = ls) := by
  rw [static_tree_await_events] at hmem
  rcases List.mem_append.mp hmem with h | hrest
  · exact absurd h (storeFlag_not_mem_arrival _ _ _ _ _ _ _)
  rcases List.mem_append.mp hrest with h | hflip
  swap
  · exact absurd hflip (by simp)
  rcases List.mem_append.mp h with hm | hmap
  · cases hap : n.arrival_parent with
    | none => simp only [hap] at hm; exact absurd hm (by simp)
    | some ps =>
        obtain ⟨p, s⟩ := ps
        simp only [hap] at hm
        rcases List.mem_cons.mp hm with h | h
        · injection h with h1 h2 h3
          exact Or.inl ⟨p, s, rfl, h1, h2⟩
        · exact absurd h (storeFlag_not_mem_spinFlagEvents _ _ _ _ _ _)
  · obtain ⟨d, hd, h⟩ := List.mem_map.mp hmap
    injection h with h1 h2 h3
    exact Or.inr ⟨d, hd, h1.symm, h2.symm⟩

/-- C2: `static_tree_barrier::await(n)` performs, in order: for each arrival
slot, spin on its flag with relaxed loads until it equals the local sense `ls`
and then acquire-load it once; if the arrival parent is non-null, release-store
`ls` into the parent's slot, spin relaxed on the own `sense` cell until it
equals `ls`, then acquire-load it once; release-store `ls` into every
departure child's `sense` cell; finally flip the local sense (the trace ends
with exactly one flip).  The only stores are to the parent slot and the
departure children's `sense` cells — in particular the arrival children's
flags of `n` itself are never written (never reset); episodes alternate the
spin target because each episode flips `ls` exactly once at the end. -/
theorem static_tree_await_order (n : TreeNode) (ls : Bool) (ks : Nat → Nat) (kp : Nat) :
    (∀ p s, n.arrival_parent = some (p, s) →
      static_tree_await_events n ls ks kp =
        ((List.range n.num_arrival_slots).flatMap fun i =>
            List.replicate (ks i) (TEvent.loadFlag (TCell.arrivalFlag n.idx i) (!ls) MemOrd.relaxed) ++
              [TEvent.loadFlag (TCell.arrivalFlag n.idx i) ls MemOrd.relaxed,
               TEvent.loadFlag (TCell.arrivalFlag n.idx i) ls MemOrd.acquire]) ++
          (TEvent.storeFlag (TCell.arrivalFlag p s) ls MemOrd.release ::
            (List.replicate kp (TEvent.loadFlag (TCell.senseCell n.idx) (!ls) MemOrd.relaxed) ++
              ([TEvent.loadFlag (TCell.senseCell n.idx) ls MemOrd.relaxed,
                TEvent.loadFlag (TCell.senseCell n.idx) ls MemOrd.acquire] ++
                ((n.departure_children.map fun d =>
                    TEvent.storeFlag (TCell.senseCell d) ls MemOrd.release) ++
                  [TEvent.flipLocalSense n.idx]))))) ∧
    (n.arrival_parent = none →
      static_tree_await_events n ls ks kp =
        ((List.range n.num_arrival_slots).flatMap fun i =>
            List.replicate (ks i) (TEvent.loadFlag (TCell.arrivalFlag n.idx i) (!ls) MemOrd.relaxed) ++
              [TEvent.loadFlag (TCell.arrivalFlag n.idx i) ls MemOrd.relaxed,
               TEvent.loadFlag (TCell.arrivalFlag n.idx i) ls MemOrd.acquire]) ++
          ((n.departure_children.map fun d =>
              TEvent.storeFlag (TCell.senseCell d) ls MemOrd.release) ++
            [TEvent.flipLocalSense n.idx])) ∧
    (∀ c v o, TEvent.storeFlag c v o ∈ static_tree_await_events n ls ks kp →
      (∃ p s, n.arrival_parent = some (p, s) ∧ c = TCell.arrivalFlag p s ∧ v = ls) ∨
      (∃ d, d ∈ n.departure_children ∧ c = TCell.senseCell d ∧ v = ls)) ∧
    (∀ p s, n.arrival_parent = some (p, s) → p ≠ n.idx →
      ∀ i v o, TEvent.storeFlag (TCell.arrivalFlag n.idx i) v o ∉
        static_tree_await_events n ls ks kp) ∧
    (static_tree_await_events n ls ks kp).getLast? = some (TEvent.flipLocalSense n.idx) ∧
    (static_tree_await_events n ls ks kp).count (TEvent.flipLocalSense n.idx) = 1 := by
  have hstore : ∀ c v o, TEvent.storeFlag c v o ∈ static_tree_await_events n ls ks kp →
      (∃ p s, n.arrival_parent = some (p, s) ∧ c = TCell.arrivalFlag p s ∧ v = ls) ∨
      (∃ d, d ∈ n.departure_children ∧ c = TCell.senseCell d ∧ v = ls) := fun c v o h =>
    static_tree_store_mem n ls ks kp c v o h
  refine ⟨?_, ?_, hstore, ?_, ?_, ?_⟩
  · intro p s h
    simp [static_tree_await_events, arrival_phase_events, spinFlagEvents, h]
  · intro h
    simp [static_tree_await_events, arrival_phase_events, spinFlagEvents, h]
  · intro p s hap hne i v o hmem
    rcases hstore _ _ _ hmem with ⟨p', s', hap', hc, -⟩ | ⟨d, -, hc, -⟩
    · rw [hap] at hap'
      injection hap' with h'
      injection h' with hp hs
      injection hc with hc1 hc2
      exact hne (hp ▸ hc1.symm)
    · exact absurd hc (by simp)
  · show (_ ++ (_ ++ _ ++ [TEvent.flipLocalSense n.idx])).getLast? = _
    rw [show ∀ (A B C : List TEvent) (x : TEvent),
          A ++ (B ++ C ++ [x]) = (A ++ (B ++ C)) ++ [x] by
        intro A B C x; simp [List.append_assoc]]
    exact List.getLast?_concat _
  · rw [static_tree_await_events, List.count_append, List.count_append, List.count_append]
    have h1 : (arrival_phase_events n.idx n.num_arrival_slots ls ks).count
        (TEvent.flipLocalSense n.idx) = 0 := by
      rw [List.count_eq_zero]
      intro h
      simp only [arrival_phase_events, List.mem_flatMap, List.mem_range] at h
      obtain ⟨i, -, hmem⟩ := h
      exact flip_not_mem_spinFlagEvents _ _ _ _ hmem
    have h2 : (match n.arrival_parent with
        | some (p, s) =>
            TEvent.storeFlag (TCell.arrivalFlag p s) ls MemOrd.release ::
              spinFlagEvents (TCell.senseCell n.idx) ls kp
        | none => ([] : List TEvent)).count (TEvent.flipLocalSense n.idx) = 0 := by
      rw [List.count_eq_zero]
      intro h
      cases hap : n.arrival_parent with
      | none => simp only [hap] at h; simp at h
      | some ps =>
          obtain ⟨p, s⟩ := ps
          simp only [hap] at h
          rcases List.mem_cons.mp h with h | h
          · exact absurd h (by simp)
          · exact flip_not_mem_spinFlagEvents _ _ _ _ h
    have h3 : ((n.departure_children.map fun d =>
        TEvent.storeFlag (TCell.senseCell d) ls MemOrd.release)).count
        (TEvent.flipLocalSense n.idx) = 0 := by
      rw [List.count_eq_zero]
      intro h
      obtain ⟨d, -, hd⟩ := List.mem_map.mp h
      exact absurd hd (by simp)
    rw [h1, h2, h3]
    simp

/-- Witness for `static_tree_await_order`: node 2 with parent slot `(0,1)`, one
arrival child and departure child 3, plus the never-reset clause at slot 0. -/
theorem static_tree_await_order_witness :
    static_tree_await_events ⟨2, some (0, 1), 1, [3]⟩ false (fun _ => 1) 2 =
      ((List.range 1).flatMap fun i =>
          List.replicate 1 (TEvent.loadFlag (TCell.arrivalFlag 2 i) true MemOrd.relaxed) ++
            [TEvent.loadFlag (TCell.arrivalFlag 2 i) false MemOrd.relaxed,
             TEvent.loadFlag (TCell.arrivalFlag 2 i) false MemOrd.acquire]) ++
        (TEvent.storeFlag (TCell.arrivalFlag 0 1) false MemOrd.release ::
          (List.replicate 2 (TEvent.loadFlag (TCell.senseCell 2) true MemOrd.relaxed) ++
            ([TEvent.loadFlag (TCell.senseCell 2) false MemOrd.relaxed,
              TEvent.loadFlag (TCell.senseCell 2) false MemOrd.acquire] ++
              (([3].map fun d =>
                  TEvent.storeFlag (TCell.senseCell d) false MemOrd.release) ++
                [TEvent.flipLocalSense 2])))) ∧
    TEvent.storeFlag (TCell.arrivalFlag 2 0) true MemOrd.relaxed ∉
      static_tree_await_events ⟨2, some (0, 1), 1, [3]⟩ false (fun _ => 1) 2 :=
  ⟨(static_tree_await_order ⟨2, some (0, 1), 1, [3]⟩ false (fun _ => 1) 2).1 0 1 rfl,
   (static_tree_await_order ⟨2, some (0, 1), 1, [3]⟩ false (fun _ => 1) 2).2.2.2.1
     0 1 rfl (by decide) 0 true MemOrd.relaxed⟩

/-- C3: `static_tree_barrier_global_departure::await(n)` has an arrival phase
identical to the local-departure barrier's (the same spin-relaxed/acquire loop
over the arrival slots, then a release store of the local sense into the
parent's slot when a parent exists); its departure phase uses the single
global `sense` flag: a non-root, after publishing its arrival, spins relaxed
on the global flag until it equals its local sense and acquire-loads it once,
while the root release-stores its local sense into the global flag; every
caller then flips its local sense. -/
theorem global_departure_await_order (n : GTreeNode) (ls : Bool) (ks : Nat → Nat) (kg : Nat) :
    (∀ p s, n.arrival_parent = some (p, s) →
      global_departure_await_events n ls ks kg =
        ((List.range n.num_arrival_slots).flatMap fun i =>
            List.replicate (ks i) (TEvent.loadFlag (TCell.arrivalFlag n.idx i) (!ls) MemOrd.relaxed) ++
              [TEvent.loadFlag (TCell.arrivalFlag n.idx i) ls MemOrd.relaxed,
               TEvent.loadFlag (TCell.arrivalFlag n.idx i) ls MemOrd.acquire]) ++
          (TEvent.storeFlag (TCell.arrivalFlag p s) ls MemOrd.release ::
            (List.replicate kg (TEvent.loadFlag TCell.globalSense (!ls) MemOrd.relaxed) ++
              ([TEvent.loadFlag TCell.globalSense ls MemOrd.relaxed,
                TEvent.loadFlag TCell.globalSense ls MemOrd.acquire] ++
                [TEvent.flipLocalSense n.idx])))) ∧
    (n.arrival_parent = none →
      global_departure_await_events n ls ks kg =
        ((List.range n.num_arrival_slots).flatMap fun i =>
            List.replicate (ks i) (TEvent.loadFlag (TCell.arrivalFlag n.idx i) (!ls) MemOrd.relaxed) ++
              [TEvent.loadFlag (TCell.arrivalFlag n.idx i) ls MemOrd.relaxed,
               TEvent.loadFlag (TCell.arrivalFlag n.idx i) ls MemOrd.acquire]) ++
          ([TEvent.storeFlag TCell.globalSense ls MemOrd.release] ++
            [TEvent.flipLocalSense n.idx])) ∧
    (∀ c v o, TEvent.storeFlag c v o ∈ global_departure_await_events n ls ks kg →
      (∃ p s, n.arrival_parent = some (p, s) ∧ c = TCell.arrivalFlag p s ∧ v = ls) ∨
      (n.arrival_parent = none ∧ c = TCell.globalSense ∧ v = ls)) ∧
    (∃ rest, global_departure_await_events n ls ks kg =
      arrival_phase_events n.idx n.num_arrival_slots ls ks ++ rest) ∧
    (∀ (m : TreeNode) (kp : Nat), m.idx = n.idx →
      m.num_arrival_slots = n.num_arrival_slots →
      ∃ rest, static_tree_await_events m ls ks kp =
        arrival_phase_events n.idx n.num_arrival_slots ls ks ++ rest) ∧
    (global_departure_await_events n ls ks kg).getLast? =
      some (TEvent.flipLocalSense n.idx) := by
  refine ⟨?_, ?_, ?_, ?_, ?_, ?_⟩
  · intro p s h
    simp [global_departure_await_events, arrival_phase_events, spinFlagEvents, h]
  · intro h
    simp [global_departure_await_events, arrival_phase_events, spinFlagEvents, h]
  · intro c v o hmem
    rw [global_departure_await_events] at hmem
    rcases List.mem_append.mp hmem with h | hrest
    · exact absurd h (storeFlag_not_mem_arrival _ _ _ _ _ _ _)
    rcases List.mem_append.mp hrest with hm | hflip
    swap
    · exact absurd hflip (by simp)
    cases hap : n.arrival_parent with
    | none =>
        simp only [hap] at hm
        rcases List.mem_singleton.mp hm with h
        injection h with h1 h2 h3
        exact Or.inr ⟨rfl, h1, h2⟩
    | some ps =>
        obtain ⟨p, s⟩ := ps
        simp only [hap] at hm
        rcases List.mem_cons.mp hm with h | h
        · injection h with h1 h2 h3
          exact Or.inl ⟨p, s, rfl, h1, h2⟩
        · exact absurd h (storeFlag_not_mem_spinFlagEvents _ _ _ _ _ _)
  · exact ⟨_, rfl⟩
  · intro m kp hidx hslots
    refine ⟨(match m.arrival_parent with
      | some (p, s) =>
          TEvent.storeFlag (TCell.arrivalFlag p s) ls MemOrd.release ::
            spinFlagEvents (TCell.senseCell m.idx) ls kp
      | none => []) ++
      (m.departure_children.map fun d =>
        TEvent.storeFlag (TCell.senseCell d) ls MemOrd.release) ++
      [TEvent.flipLocalSense m.idx], ?_⟩
    rw [static_tree_await_events, hidx, hslots]
  · show (_ ++ (_ ++ [TEvent.flipLocalSense n.idx])).getLast? = _
    rw [show ∀ (A B : List TEvent) (x : TEvent),
          A ++ (B ++ [x]) = (A ++ B) ++ [x] by
        intro A B x; simp [List.append_assoc]]
    exact List.getLast?_concat _

/-- Witness for `global_departure_await_order`: the root case (node 0 with two
arrival slots) and the non-root case (node 1, parent slot `(0,0)`). -/
theorem global_departure_await_order_witness :
    global_departure_await_events ⟨0, none, 2⟩ false (fun _ => 0) 0 =
      ((List.range 2).flatMap fun i =>
          List.replicate 0 (TEvent.loadFlag (TCell.arrivalFlag 0 i) true MemOrd.relaxed) ++
            [TEvent.loadFlag (TCell.arrivalFlag 0 i) false MemOrd.relaxed,
             TEvent.loadFlag (TCell.arrivalFlag 0 i) false MemOrd.acquire]) ++
        ([TEvent.storeFlag TCell.globalSense false MemOrd.release] ++
          [TEvent.flipLocalSense 0]) ∧
    global_departure_await_events ⟨1, some (0, 0), 0⟩ false (fun _ => 0) 1 =
      ((List.range 0).flatMap fun i =>
          List.replicate 0 (TEvent.loadFlag (TCell.arrivalFlag 1 i) true MemOrd.relaxed) ++
            [TEvent.loadFlag (TCell.arrivalFlag 1 i) false MemOrd.relaxed,
             TEvent.loadFlag (TCell.arrivalFlag 1 i) false MemOrd.acquire]) ++
        (TEvent.storeFlag (TCell.arrivalFlag 0 0) false MemOrd.release ::
          (List.replicate 1 (TEvent.loadFlag TCell.globalSense true MemOrd.relaxed) ++
            ([TEvent.loadFlag TCell.globalSense false MemOrd.relaxed,
              TEvent.loadFlag TCell.globalSense false MemOrd.acquire] ++
              [TEvent.flipLocalSense 1]))) :=
  ⟨(global_departure_await_order ⟨0, none, 2⟩ false (fun _ => 0) 0).2.1 rfl,
   (global_departure_await_order ⟨1, some (0, 0), 0⟩ false (fun _ => 0) 1).1 0 0 rfl⟩

lemma epOdd_succ (n : Nat) : epOdd (n + 1) = !epOdd n := by
  have h : (n + 1) % 2 = 1 ↔ ¬ n % 2 = 1 := by omega
  by_cases hn : n % 2 = 1 <;> simp [epOdd, h, hn]

lemma senseOfRound_succ (r : Nat) : senseOfRound (r + 1) = epOdd r := by
  have h : (r + 1) % 2 = 0 ↔ r % 2 = 1 := by omega
  by_cases hr : r % 2 = 1 <;> simp [senseOfRound, epOdd, h, hr]

lemma senseOfRound_ne_epOdd (r : Nat) : senseOfRound r ≠ epOdd r := by
  by_cases hr : r % 2 = 0
  · have h1 : ¬ r % 2 = 1 := by omega
    simp [senseOfRound, epOdd, hr, h1]
  · have h1 : r % 2 = 1 := by omega
    simp [senseOfRound, epOdd, hr, h1]

lemma card_filter_update_aux {N : Nat} (f : Fin N → CThread) (t : Fin N) (v : CThread)
    (Q : CThread → Prop) [DecidablePred Q] :
    (Finset.univ.filter fun u => Q (Function.update f t v u)).card =
      ((Finset.univ.erase t).filter fun u => Q (f u)).card + (if Q v then 1 else 0) := by
  have hins : (Finset.univ : Finset (Fin N)) = insert t (Finset.univ.erase t) :=
    (Finset.insert_erase (Finset.mem_univ t)).symm
  have hcong : ((Finset.univ.erase t).filter fun u => Q (Function.update f t v u)) =
      ((Finset.univ.erase t).filter fun u => Q (f u)) := by
    apply Finset.filter_congr
    intro u hu
    rw [Function.update_noteq (Finset.mem_erase.mp hu).1]
  have hnm : t ∉ ((Finset.univ.erase t).filter fun u => Q (f u)) := fun hmem =>
    (Finset.mem_erase.mp (Finset.mem_of_mem_filter t hmem)).1 rfl
  conv_lhs => rw [hins, Finset.filter_insert]
  simp only [Function.update_same]
  by_cases hv : Q v
  · rw [if_pos hv, hcong, Finset.card_insert_of_not_mem hnm, if_pos hv]
  · rw [if_neg hv, hcong, if_neg hv, Nat.add_zero]

lemma card_filter_erase_aux {N : Nat} (f : Fin N → CThread) (t : Fin N)
    (Q : CThread → Prop) [DecidablePred Q] :
    (Finset.univ.filter fun u => Q (f u)).card =
      ((Finset.univ.erase t).filter fun u => Q (f u)).card + (if Q (f t) then 1 else 0) := by
  have hins : (Finset.univ : Finset (Fin N)) = insert t (Finset.univ.erase t) :=
    (Finset.insert_erase (Finset.mem_univ t)).symm
  have hnm : t ∉ ((Finset.univ.erase t).filter fun u => Q (f u)) := fun hmem =>
    (Finset.mem_erase.mp (Finset.mem_of_mem_filter t hmem)).1 rfl
  conv_lhs => rw [hins, Finset.filter_insert]
  by_cases hv : Q (f t)
  · rw [if_pos hv, Finset.card_insert_of_not_mem hnm, if_pos hv]
  · rw [if_neg hv, if_neg hv, Nat.add_zero]

lemma spinCount_update_same {N : Nat} (r : Nat) (f : Fin N → CThread) (t : Fin N)
    (v : CThread) (hv : ¬ curSpin r v) (hf : ¬ curSpin r (f t)) :
    spinCount r (Function.update f t v) = spinCount r f := by
  rw [spinCount, spinCount, card_filter_update_aux f t v (curSpin r),
    card_filter_erase_aux f t (curSpin r), if_neg hv, if_neg hf]

lemma spinCount_update_add {N : Nat} (r : Nat) (f : Fin N → CThread) (t : Fin N)
    (v : CThread) (hv : curSpin r v) (hf : ¬ curSpin r (f t)) :
    spinCount r (Function.update f t v) = spinCount r f + 1 := by
  rw [spinCount, spinCount, card_filter_update_aux f t v (curSpin r),
    card_filter_erase_aux f t (curSpin r), if_pos hv, if_neg hf]

lemma all_others_curSpin {N : Nat} (r : Nat) (f : Fin N → CThread) (t : Fin N)
    (hf : ¬ curSpin r (f t)) (hcard : spinCount r f = N - 1) :
    ∀ v, v ≠ t → curSpin r (f v) := by
  intro v hv
  have herase : ((Finset.univ.erase t).filter fun u => curSpin r (f u)).card = N - 1 := by
    have h := card_filter_erase_aux f t (curSpin r)
    rw [if_neg hf] at h
    rw [spinCount] at hcard
    omega
  have hsub : ((Finset.univ.erase t).filter fun u => curSpin r (f u)) ⊆
      Finset.univ.erase t := Finset.filter_subset _ _
  have hcard_erase : (Finset.univ.erase t).card = N - 1 := by
    rw [Finset.card_erase_of_mem (Finset.mem_univ t), Finset.card_univ, Fintype.card_fin]
  have heq : ((Finset.univ.erase t).filter fun u => curSpin r (f u)) =
      Finset.univ.erase t :=
    Finset.eq_of_subset_of_card_le hsub (by rw [herase, hcard_erase])
  have hvmem : v ∈ Finset.univ.erase t := Finset.mem_erase.mpr ⟨hv, Finset.mem_univ v⟩
  rw [← heq] at hvmem
  exact (Finset.mem_filter.mp hvmem).2

lemma no_releaser {N E r : Nat} {s : CState N} (t : Fin N)
    (hc1 : ∀ u, relPre r (s.thr u) → s.counter = N ∧ ∀ v, v ≠ u → curSpin r (s.thr v))
    (hc2 : ∀ u, relPost r (s.thr u) → s.counter = 0 ∧ ∀ v, v ≠ u → curSpin r (s.thr v))
    (ht : ¬ relPre r (s.thr t) ∧ ¬ relPost r (s.thr t) ∧ ¬ curSpin r (s.thr t)) :
    ∀ u, ¬ relPre r (s.thr u) ∧ ¬ relPost r (s.thr u) := by
  intro u
  have hE : E = E := rfl
  constructor
  · intro hrel
    by_cases hut : u = t
    · exact ht.1 (hut ▸ hrel)
    · exact ht.2.2 ((hc1 u hrel).2 t fun hh => hut hh.symm)
  · intro hrel
    by_cases hut : u = t
    · exact ht.2.1 (hut ▸ hrel)
    · exact ht.2.2 ((hc2 u hrel).2 t fun hh => hut hh.symm)

/-- The invariant `CInv` is preserved by every step of the centralized-barrier
machine. -/
lemma CInv_step {N E : Nat} {s s' : CState N} (hstep : CStep N E s s') (hinv : CInv N E s) :
    CInv N E s' := by
  obtain ⟨r, hrE, hsense, hls, hcat, hc0, hc1, hc2⟩ := hinv
  cases hstep with
  | arrive t h =>
      have hcur : (s.thr t).ep = r ∧ r < E := by
        rcases hcat t with ⟨-, -, hpc | hpc⟩ | ⟨hep, hrlt, -⟩ | ⟨-, -, hpc⟩
        · rw [h] at hpc; exact absurd hpc (by decide)
        · rw [h] at hpc; exact absurd hpc (by decide)
        · exact ⟨hep, hrlt⟩
        · rw [h] at hpc; exact absurd hpc (by decide)
      obtain ⟨hep, hrlt⟩ := hcur
      have htno : ¬ relPre r (s.thr t) ∧ ¬ relPost r (s.thr t) ∧ ¬ curSpin r (s.thr t) := by
        refine ⟨?_, ?_, ?_⟩
        · rintro ⟨-, hpc | hpc⟩ <;> rw [h] at hpc <;> exact absurd hpc (by decide)
        · rintro ⟨-, hpc⟩; rw [h] at hpc; exact absurd hpc (by decide)
        · rintro ⟨-, hpc⟩; rw [h] at hpc; exact absurd hpc (by decide)
      have hnorel := no_releaser (E := E) t hc1 hc2 htno
      have hcount := hc0 hnorel
      by_cases hN : s.counter + 1 = N
      · simp only [if_pos hN]
        refine ⟨r, hrE, hsense, ?_, ?_, ?_, ?_, ?_⟩
        · intro u
          dsimp only
          by_cases hu : u = t
          · subst hu; rw [Function.update_same]; exact hls u
          · rw [Function.update_noteq hu]; exact hls u
        · intro u
          dsimp only
          by_cases hu : u = t
          · subst hu
            rw [Function.update_same]
            exact Or.inr (Or.inl ⟨hep, hrlt, Or.inr (Or.inr (Or.inl rfl))⟩)
          · rw [Function.update_noteq hu]; exact hcat u
        · intro hno
          dsimp only at hno
          exfalso
          refine (hno t).1 ?_
          rw [Function.update_same]
          exact ⟨hep, Or.inl rfl⟩
        · intro u hrel
          dsimp only at hrel ⊢
          by_cases hu : u = t
          · refine ⟨hN, ?_⟩
            intro v hv
            rw [hu] at hv
            rw [Function.update_noteq hv]
            exact all_others_curSpin r s.thr t htno.2.2 (by omega) v hv
          · rw [Function.update_noteq hu] at hrel
            exact absurd hrel (hnorel u).1
        · intro u hrel
          dsimp only at hrel ⊢
          by_cases hu : u = t
          · subst hu
            rw [Function.update_same] at hrel
            have hpc2 := hrel.2
            dsimp only at hpc2
            exact absurd hpc2 (by decide)
          · rw [Function.update_noteq hu] at hrel
            exact absurd hrel (hnorel u).2
      · simp only [if_neg hN]
        refine ⟨r, hrE, hsense, ?_, ?_, ?_, ?_, ?_⟩
        · intro u
          dsimp only
          by_cases hu : u = t
          · subst hu; rw [Function.update_same]; exact hls u
          · rw [Function.update_noteq hu]; exact hls u
        · intro u
          dsimp only
          by_cases hu : u = t
          · subst hu
            rw [Function.update_same]
            exact Or.inr (Or.inl ⟨hep, hrlt, Or.inr (Or.inl rfl)⟩)
          · rw [Function.update_noteq hu]; exact hcat u
        · intro hno
          dsimp only
          rw [spinCount_update_add r s.thr t { s.thr t with pc := CPc.spin } ⟨hep, rfl⟩ htno.2.2]
          omega
        · intro u hrel
          dsimp only at hrel ⊢
          by_cases hu : u = t
          · subst hu
            rw [Function.update_same] at hrel
            rcases hrel.2 with hpc | hpc <;> dsimp only at hpc <;>
              exact absurd hpc (by decide)
          · rw [Function.update_noteq hu] at hrel
            exact absurd hrel (hnorel u).1
        · intro u hrel
          dsimp only at hrel ⊢
          by_cases hu : u = t
          · subst hu
            rw [Function.update_same] at hrel
            have hpc2 := hrel.2
            dsimp only at hpc2
            exact absurd hpc2 (by decide)
          · rw [Function.update_noteq hu] at hrel
            exact absurd hrel (hnorel u).2
  | syncld t h =>
      have hcur : (s.thr t).ep = r ∧ r < E := by
        rcases hcat t with ⟨-, -, hpc | hpc⟩ | ⟨hep, hrlt, -⟩ | ⟨-, -, hpc⟩
        · rw [h] at hpc; exact absurd hpc (by decide)
        · rw [h] at hpc; exact absurd hpc (by decide)
        · exact ⟨hep, hrlt⟩
        · rw [h] at hpc; exact absurd hpc (by decide)
      obtain ⟨hep, hrlt⟩ := hcur
      obtain ⟨hcN, hall⟩ := hc1 t ⟨hep, Or.inl h⟩
      refine ⟨r, hrE, hsense, ?_, ?_, ?_, ?_, ?_⟩
      · intro u
        dsimp only
        by_cases hu : u = t
        · subst hu; rw [Function.update_same]; exact hls u
        · rw [Function.update_noteq hu]; exact hls u
      · intro u
        dsimp only
        by_cases hu : u = t
        · subst hu
          rw [Function.update_same]
          exact Or.inr (Or.inl ⟨hep, hrlt, Or.inr (Or.inr (Or.inr (Or.inl rfl)))⟩)
        · rw [Function.update_noteq hu]; exact hcat u
      · intro hno
        dsimp only at hno
        exfalso
        refine (hno t).1 ?_
        rw [Function.update_same]
        exact ⟨hep, Or.inr rfl⟩
      · intro u hrel
        dsimp only at hrel ⊢
        by_cases hu : u = t
        · refine ⟨hcN, ?_⟩
          intro v hv
          rw [hu] at hv
          rw [Function.update_noteq hv]
          exact hall v hv
        · rw [Function.update_noteq hu] at hrel
          have hs := hall u hu
          rcases hrel.2 with hpc | hpc <;> rw [hs.2] at hpc <;> exact absurd hpc (by decide)
      · intro u hrel
        dsimp only at hrel ⊢
        by_cases hu : u = t
        · subst hu
          rw [Function.update_same] at hrel
          have hpc2 := hrel.2
          dsimp only at hpc2
          exact absurd hpc2 (by decide)
        · rw [Function.update_noteq hu] at hrel
          have hs := hall u hu
          have hpc2 := hrel.2
          rw [hs.2] at hpc2
          exact absurd hpc2 (by decide)
  | reset t h =>
      have hcur : (s.thr t).ep = r ∧ r < E := by
        rcases hcat t with ⟨-, -, hpc | hpc⟩ | ⟨hep, hrlt, -⟩ | ⟨-, -, hpc⟩
        · rw [h] at hpc; exact absurd hpc (by decide)
        · rw [h] at hpc; exact absurd hpc (by decide)
        · exact ⟨hep, hrlt⟩
        · rw [h] at hpc; exact absurd hpc (by decide)
      obtain ⟨hep, hrlt⟩ := hcur
      obtain ⟨hcN, hall⟩ := hc1 t ⟨hep, Or.inr h⟩
      refine ⟨r, hrE, hsense, ?_, ?_, ?_, ?_, ?_⟩
      · intro u
        dsimp only
        by_cases hu : u = t
        · subst hu; rw [Function.update_same]; exact hls u
        · rw [Function.update_noteq hu]; exact hls u
      · intro u
        dsimp only
        by_cases hu : u = t
        · subst hu
          rw [Function.update_same]
          exact Or.inr (Or.inl ⟨hep, hrlt, Or.inr (Or.inr (Or.inr (Or.inr rfl)))⟩)
        · rw [Function.update_noteq hu]; exact hcat u
      · intro hno
        dsimp only at hno
        exfalso
        refine (hno t).2 ?_
        rw [Function.update_same]
        exact ⟨hep, rfl⟩
      · intro u hrel
        dsimp only at hrel ⊢
        by_cases hu : u = t
        · subst hu
          rw [Function.update_same] at hrel
          rcases hrel.2 with hpc | hpc <;> dsimp only at hpc <;>
            exact absurd hpc (by decide)
        · rw [Function.update_noteq hu] at hrel
          have hs := hall u hu
          rcases hrel.2 with hpc | hpc <;> rw [hs.2] at hpc <;> exact absurd hpc (by decide)
      · intro u hrel
        dsimp only at hrel ⊢
        by_cases hu : u = t
        · refine ⟨rfl, ?_⟩
          intro v hv
          rw [hu] at hv
          rw [Function.update_noteq hv]
          exact hall v hv
        · rw [Function.update_noteq hu] at hrel
          have hs := hall u hu
          have hpc2 := hrel.2
          rw [hs.2] at hpc2
          exact absurd hpc2 (by decide)
  | signal t h =>
      have hcur : (s.thr t).ep = r ∧ r < E := by
        rcases hcat t with ⟨-, -, hpc | hpc⟩ | ⟨hep, hrlt, -⟩ | ⟨-, -, hpc⟩
        · rw [h] at hpc; exact absurd hpc (by decide)
        · rw [h] at hpc; exact absurd hpc (by decide)
        · exact ⟨hep, hrlt⟩
        · rw [h] at hpc; exact absurd hpc (by decide)
      obtain ⟨hep, hrlt⟩ := hcur
      obtain ⟨hc0eq, hall⟩ := hc2 t ⟨hep, h⟩
      refine ⟨r + 1, by omega, ?_, ?_, ?_, ?_, ?_, ?_⟩
      · show (s.thr t).ls = senseOfRound (r + 1)
        rw [hls t, hep, senseOfRound_succ]
      · intro u
        dsimp only
        by_cases hu : u = t
        · subst hu; rw [Function.update_same]; exact hls u
        · rw [Function.update_noteq hu]; exact hls u
      · intro u
        dsimp only
        by_cases hu : u = t
        · subst hu
          rw [Function.update_same]
          refine Or.inl ⟨by omega, ?_, Or.inr rfl⟩
          dsimp only
          omega
        · rw [Function.update_noteq hu]
          have hs := hall u hu
          have hsep : (s.thr u).ep = r := hs.1
          exact Or.inl ⟨by omega, by omega, Or.inl hs.2⟩
      · intro hno
        dsimp only
        have hzero : spinCount (r + 1)
            (Function.update s.thr t { s.thr t with pc := CPc.flip }) = 0 := by
          rw [spinCount, Finset.card_eq_zero, Finset.filter_eq_empty_iff]
          intro u _
          rintro ⟨hep', -⟩
          by_cases hu : u = t
          · rw [hu, Function.update_same] at hep'
            dsimp only at hep'
            omega
          · rw [Function.update_noteq hu] at hep'
            have hs := (hall u hu).1
            omega
        rw [hzero]
        exact hc0eq
      · intro u hrel
        dsimp only at hrel
        by_cases hu : u = t
        · rw [hu, Function.update_same] at hrel
          have hepx : (s.thr t).ep = r + 1 := hrel.1
          omega
        · rw [Function.update_noteq hu] at hrel
          have hs := (hall u hu).1
          have hepx : (s.thr u).ep = r + 1 := hrel.1
          omega
      · intro u hrel
        dsimp only at hrel
        by_cases hu : u = t
        · rw [hu, Function.update_same] at hrel
          have hepx : (s.thr t).ep = r + 1 := hrel.1
          omega
        · rw [Function.update_noteq hu] at hrel
          have hs := (hall u hu).1
          have hepx : (s.thr u).ep = r + 1 := hrel.1
          omega
  | spinFail t h hne => exact ⟨r, hrE, hsense, hls, hcat, hc0, hc1, hc2⟩
  | spinPass t h heq =>
      have hlag : 1 ≤ r ∧ (s.thr t).ep = r - 1 := by
        rcases hcat t with ⟨hr1, hep, -⟩ | ⟨hep, -, -⟩ | ⟨-, -, hpc⟩
        · exact ⟨hr1, hep⟩
        · exfalso
          have hx := heq
          rw [hsense, hls t, hep] at hx
          exact senseOfRound_ne_epOdd r hx
        · rw [h] at hpc; exact absurd hpc (by decide)
      obtain ⟨hr1, hep⟩ := hlag
      have htno : ¬ relPre r (s.thr t) ∧ ¬ relPost r (s.thr t) ∧ ¬ curSpin r (s.thr t) := by
        refine ⟨?_, ?_, ?_⟩
        · rintro ⟨-, hpc | hpc⟩ <;> rw [h] at hpc <;> exact absurd hpc (by decide)
        · rintro ⟨-, hpc⟩; rw [h] at hpc; exact absurd hpc (by decide)
        · rintro ⟨hep', -⟩; omega
      have hnorel := no_releaser (E := E) t hc1 hc2 htno
      have hcount := hc0 hnorel
      refine ⟨r, hrE, hsense, ?_, ?_, ?_, ?_, ?_⟩
      · intro u
        dsimp only
        by_cases hu : u = t
        · subst hu; rw [Function.update_same]; exact hls u
        · rw [Function.update_noteq hu]; exact hls u
      · intro u
        dsimp only
        by_cases hu : u = t
        · subst hu
          rw [Function.update_same]
          exact Or.inl ⟨hr1, hep, Or.inr rfl⟩
        · rw [Function.update_noteq hu]; exact hcat u
      · intro hno
        dsimp only
        rw [spinCount_update_same r s.thr t { s.thr t with pc := CPc.flip }
          (by rintro ⟨-, hpc⟩; dsimp only at hpc; exact absurd hpc (by decide)) htno.2.2]
        exact hcount
      · intro u hrel
        dsimp only at hrel
        by_cases hu : u = t
        · subst hu
          rw [Function.update_same] at hrel
          rcases hrel.2 with hpc | hpc <;> dsimp only at hpc <;>
            exact absurd hpc (by decide)
        · rw [Function.update_noteq hu] at hrel
          exact absurd hrel (hnorel u).1
      · intro u hrel
        dsimp only at hrel
        by_cases hu : u = t
        · subst hu
          rw [Function.update_same] at hrel
          have hpc2 := hrel.2
          dsimp only at hpc2
          exact absurd hpc2 (by decide)
        · rw [Function.update_noteq hu] at hrel
          exact absurd hrel (hnorel u).2
  | flip t h =>
      have hlag : 1 ≤ r ∧ (s.thr t).ep = r - 1 := by
        rcases hcat t with ⟨hr1, hep, -⟩ | ⟨hep, -, hpc | hpc | hpc | hpc | hpc⟩ | ⟨-, -, hpc⟩
        · exact ⟨hr1, hep⟩
        · rw [h] at hpc; exact absurd hpc (by decide)
        · rw [h] at hpc; exact absurd hpc (by decide)
        · rw [h] at hpc; exact absurd hpc (by decide)
        · rw [h] at hpc; exact absurd hpc (by decide)
        · rw [h] at hpc; exact absurd hpc (by decide)
        · rw [h] at hpc; exact absurd hpc (by decide)
      obtain ⟨hr1, hep⟩ := hlag
      have htno : ¬ relPre r (s.thr t) ∧ ¬ relPost r (s.thr t) ∧ ¬ curSpin r (s.thr t) := by
        refine ⟨?_, ?_, ?_⟩
        · rintro ⟨-, hpc | hpc⟩ <;> rw [h] at hpc <;> exact absurd hpc (by decide)
        · rintro ⟨-, hpc⟩; rw [h] at hpc; exact absurd hpc (by decide)
        · rintro ⟨-, hpc⟩; rw [h] at hpc; exact absurd hpc (by decide)
      have hnorel := no_releaser (E := E) t hc1 hc2 htno
      have hcount := hc0 hnorel
      have hvns : ¬ curSpin r (⟨if (s.thr t).ep + 1 < E then CPc.arrive else CPc.done,
          !(s.thr t).ls, (s.thr t).ep + 1⟩ : CThread) := by
        rintro ⟨-, hpc⟩
        dsimp only at hpc
        by_cases hlt : (s.thr t).ep + 1 < E
        · rw [if_pos hlt] at hpc; exact absurd hpc (by decide)
        · rw [if_neg hlt] at hpc; exact absurd hpc (by decide)
      refine ⟨r, hrE, hsense, ?_, ?_, ?_, ?_, ?_⟩
      · intro u
        dsimp only
        by_cases hu : u = t
        · subst hu
          rw [Function.update_same]
          dsimp only
          rw [epOdd_succ]
          rw [hls u]
        · rw [Function.update_noteq hu]; exact hls u
      · intro u
        dsimp only
        by_cases hu : u = t
        · subst hu
          rw [Function.update_same]
          by_cases hlt : (s.thr u).ep + 1 < E
          · simp only [if_pos hlt]
            refine Or.inr (Or.inl ⟨?_, by omega, Or.inl rfl⟩)
            dsimp only
            omega
          · simp only [if_neg hlt]
            refine Or.inr (Or.inr ⟨?_, by omega, rfl⟩)
            dsimp only
            omega
        · rw [Function.update_noteq hu]; exact hcat u
      · intro hno
        dsimp only
        rw [spinCount_update_same r s.thr t _ hvns htno.2.2]
        exact hcount
      · intro u hrel
        dsimp only at hrel
        by_cases hu : u = t
        · subst hu
          rw [Function.update_same] at hrel
          have hpc2 := hrel.2
          by_cases hlt : (s.thr u).ep + 1 < E
          · rcases hpc2 with hpc | hpc <;> dsimp only at hpc <;> rw [if_pos hlt] at hpc <;>
              exact absurd hpc (by decide)
          · rcases hpc2 with hpc | hpc <;> dsimp only at hpc <;> rw [if_neg hlt] at hpc <;>
              exact absurd hpc (by decide)
        · rw [Function.update_noteq hu] at hrel
          exact absurd hrel (hnorel u).1
      · intro u hrel
        dsimp only at hrel
        by_cases hu : u = t
        · subst hu
          rw [Function.update_same] at hrel
          have hpc2 := hrel.2
          dsimp only at hpc2
          by_cases hlt : (s.thr u).ep + 1 < E
          · rw [if_pos hlt] at hpc2; exact absurd hpc2 (by decide)
          · rw [if_neg hlt] at hpc2; exact absurd hpc2 (by decide)
        · rw [Function.update_noteq hu] at hrel
          exact absurd hrel (hnorel u).2

lemma CInv_init (N E : Nat) : CInv N E (CInit N E) := by
  refine ⟨0, Nat.zero_le E, rfl, ?_, ?_, ?_, ?_, ?_⟩
  · intro u; rfl
  · intro u
    by_cases hE : 0 < E
    · refine Or.inr (Or.inl ⟨rfl, hE, Or.inl ?_⟩)
      show (if 0 < E then CPc.arrive else CPc.done) = CPc.arrive
      rw [if_pos hE]
    · refine Or.inr (Or.inr ⟨rfl, by omega, ?_⟩)
      show (if 0 < E then CPc.arrive else CPc.done) = CPc.done
      rw [if_neg hE]
  · intro _
    show 0 = spinCount 0 (CInit N E).thr
    rw [spinCount]
    symm
    rw [Finset.card_eq_zero, Finset.filter_eq_empty_iff]
    intro u _
    rintro ⟨-, hpc⟩
    revert hpc
    show ¬ (if 0 < E then CPc.arrive else CPc.done) = CPc.spin
    by_cases hE : 0 < E
    · rw [if_pos hE]; decide
    · rw [if_neg hE]; decide
  · intro u hrel
    exfalso
    rcases hrel.2 with hpc | hpc <;> revert hpc <;>
      show ¬ (if 0 < E then CPc.arrive else CPc.done) = _ <;>
      by_cases hE : 0 < E
    · rw [if_pos hE]; decide
    · rw [if_neg hE]; decide
    · rw [if_pos hE]; decide
    · rw [if_neg hE]; decide
  · intro u hrel
    exfalso
    have hpc := hrel.2
    revert hpc
    show ¬ (if 0 < E then CPc.arrive else CPc.done) = CPc.signal
    by_cases hE : 0 < E
    · rw [if_pos hE]; decide
    · rw [if_neg hE]; decide

lemma CInv_reachable {N E : Nat} {s : CState N} (h : CReach N E s) : CInv N E s := by
  induction h with
  | refl => exact CInv_init N E
  | tail hab hbc ih => exact CInv_step hbc ih

lemma centralized_terminal {N E : Nat} (hN : 1 ≤ N) {s : CState N}
    (hreach : CReach N E s) (hdone : ∀ t, (s.thr t).pc = CPc.done) :
    s.counter = 0 ∧ s.sense = senseOfRound E ∧
      ∀ t, (s.thr t).ls = epOdd E ∧ (s.thr t).ep = E := by
  obtain ⟨r, hrE, hsense, hls, hcat, hc0, hc1, hc2⟩ := CInv_reachable hreach
  have hrEeq : r = E := by
    rcases hcat ⟨0, hN⟩ with ⟨-, -, hpc | hpc⟩ | ⟨-, -, hpc | hpc | hpc | hpc | hpc⟩ |
      ⟨-, hrr, -⟩
    all_goals first
      | exact hrr
      | (rw [hdone ⟨0, hN⟩] at hpc; exact absurd hpc (by decide))
  subst hrEeq
  have heps : ∀ t, (s.thr t).ep = r := by
    intro t
    rcases hcat t with ⟨-, -, hpc | hpc⟩ | ⟨-, -, hpc | hpc | hpc | hpc | hpc⟩ |
      ⟨hep, -, -⟩
    all_goals first
      | exact hep
      | (rw [hdone t] at hpc; exact absurd hpc (by decide))
  refine ⟨?_, hsense, fun t => ⟨by rw [hls t, heps t], heps t⟩⟩
  have hnorel : ∀ u, ¬ relPre r (s.thr u) ∧ ¬ relPost r (s.thr u) := by
    intro u
    constructor
    · rintro ⟨-, hpc | hpc⟩ <;> rw [hdone u] at hpc <;> exact absurd hpc (by decide)
    · rintro ⟨-, hpc⟩; rw [hdone u] at hpc; exact absurd hpc (by decide)
  rw [hc0 hnorel, spinCount, Finset.card_eq_zero, Finset.filter_eq_empty_iff]
  intro u _
  rintro ⟨-, hpc⟩
  rw [hdone u] at hpc
  exact absurd hpc (by decide)

lemma local_sense_updates_append (idx : Nat) (l1 l2 : List TEvent) (b : Bool) :
    local_sense_updates idx (l1 ++ l2) b =
      local_sense_updates idx l2 (local_sense_updates idx l1 b) := by
  rw [local_sense_updates, local_sense_updates, local_sense_updates, List.foldl_append]

lemma local_sense_updates_no_flip (idx : Nat) (l : List TEvent)
    (h : ∀ j, TEvent.flipLocalSense j ∉ l) (b : Bool) :
    local_sense_updates idx l b = b := by
  induction l generalizing b with
  | nil => rfl
  | cons e l ih =>
      have he : ∀ j, e ≠ TEvent.flipLocalSense j := by
        intro j heq
        exact h j (heq ▸ List.mem_cons_self e l)
      have hl : ∀ j, TEvent.flipLocalSense j ∉ l := by
        intro j hmem
        exact h j (List.mem_cons_of_mem e hmem)
      rw [local_sense_updates] at *
      cases e with
      | flipLocalSense j => exact absurd rfl (he j)
      | loadFlag c v o => exact ih hl b
      | storeFlag c v o => exact ih hl b

lemma flip_not_mem_arrival (idx nslots : Nat) (ls : Bool) (ks : Nat → Nat) (j : Nat) :
    TEvent.flipLocalSense j ∉ arrival_phase_events idx nslots ls ks := by
  intro h
  simp only [arrival_phase_events, List.mem_flatMap, List.mem_range] at h
  obtain ⟨i, -, hmem⟩ := h
  exact flip_not_mem_spinFlagEvents _ _ _ _ hmem

lemma static_tree_await_flips (n : TreeNode) (ls : Bool) (ks : Nat → Nat) (kp : Nat) :
    local_sense_updates n.idx (static_tree_await_events n ls ks kp) ls = !ls := by
  have harr : ∀ j, TEvent.flipLocalSense j ∉
      arrival_phase_events n.idx n.num_arrival_slots ls ks := fun j =>
    flip_not_mem_arrival _ _ _ _ j
  have hmatch : ∀ j, TEvent.flipLocalSense j ∉ (match n.arrival_parent with
      | some (p, s) =>
          TEvent.storeFlag (TCell.arrivalFlag p s) ls MemOrd.release ::
            spinFlagEvents (TCell.senseCell n.idx) ls kp
      | none => ([] : List TEvent)) := by
    intro j hmem
    cases hap : n.arrival_parent with
    | none => rw [hap] at hmem; simp at hmem
    | some ps =>
        obtain ⟨p, q⟩ := ps
        rw [hap] at hmem
        rcases List.mem_cons.mp hmem with h | h
        · exact absurd h (by simp)
        · exact flip_not_mem_spinFlagEvents _ _ _ _ h
  have hmap : ∀ j, TEvent.flipLocalSense j ∉ (n.departure_children.map fun d =>
      TEvent.storeFlag (TCell.senseCell d) ls MemOrd.release) := by
    intro j hmem
    obtain ⟨d, -, hd⟩ := List.mem_map.mp hmem
    exact absurd hd (by simp)
  rw [static_tree_await_events, local_sense_updates_append,
    local_sense_updates_no_flip _ _ harr,
    local_sense_updates_append, local_sense_updates_append,
    local_sense_updates_no_flip _ _ hmatch,
    local_sense_updates_no_flip _ _ hmap]
  show (if n.idx = n.idx then !ls else ls) = !ls
  rw [if_pos rfl]

lemma global_departure_await_flips (n : GTreeNode) (ls : Bool) (ks : Nat → Nat)
    (kg : Nat) :
    local_sense_updates n.idx (global_departure_await_events n ls ks kg) ls = !ls := by
  have harr : ∀ j, TEvent.flipLocalSense j ∉
      arrival_phase_events n.idx n.num_arrival_slots ls ks := fun j =>
    flip_not_mem_arrival _ _ _ _ j
  have hmatch : ∀ j, TEvent.flipLocalSense j ∉ (match n.arrival_parent with
      | some (p, s) =>
          TEvent.storeFlag (TCell.arrivalFlag p s) ls MemOrd.release ::
            spinFlagEvents TCell.globalSense ls kg
      | none => [TEvent.storeFlag TCell.globalSense ls MemOrd.release]) := by
    intro j hmem
    cases hap : n.arrival_parent with
    | none =>
        rw [hap] at hmem
        rcases List.mem_singleton.mp hmem with h
        exact absurd h (by simp)
    | some ps =>
        obtain ⟨p, q⟩ := ps
        rw [hap] at hmem
        rcases List.mem_cons.mp hmem with h | h
        · exact absurd h (by simp)
        · exact flip_not_mem_spinFlagEvents _ _ _ _ h
  rw [global_departure_await_events, local_sense_updates_append,
    local_sense_updates_no_flip _ _ harr,
    local_sense_updates_append,
    local_sense_updates_no_flip _ _ hmatch]
  show (if n.idx = n.idx then !ls else ls) = !ls
  rw [if_pos rfl]

lemma flip_iterate_parity : ∀ e : Nat, (fun b => !b)^[e] false = epOdd e := by
  intro e
  induction e with
  | zero => rfl
  | succ e ih =>
      rw [Function.iterate_succ_apply', ih, epOdd_succ]

/-- C4: at every reachable state of the centralized-barrier machine each
thread's local sense equals the parity of the episodes it has completed
(starting at `false`); when all `N ≥ 1` threads finish their `E` episodes the
counter is back to 0, the shared sense is the round parity (`true` for even
`E`), and every local sense is `epOdd E` — so two consecutive episodes restore
the original parity; in particular for `N = 4`: after one episode
`counter = 0`, `sense = false`, all local senses `true`, and after two
episodes `counter = 0`, `sense = true`, all local senses `false`.  Both tree
barriers flip the caller's local sense exactly once per `await`, so their
local senses likewise follow episode parity. -/
theorem sense_alternation_round_trip :
    (∀ (N E : Nat) (s : CState N), CReach N E s →
      ∀ t, (s.thr t).ls = epOdd (s.thr t).ep) ∧
    (∀ (N E : Nat) (s : CState N), 1 ≤ N → CReach N E s →
      (∀ t, (s.thr t).pc = CPc.done) →
      s.counter = 0 ∧ s.sense = senseOfRound E ∧
        ∀ t, (s.thr t).ls = epOdd E ∧ (s.thr t).ep = E) ∧
    (∀ s : CState 4, CReach 4 1 s → (∀ t, (s.thr t).pc = CPc.done) →
      s.counter = 0 ∧ s.sense = false ∧ ∀ t, (s.thr t).ls = true) ∧
    (∀ s : CState 4, CReach 4 2 s → (∀ t, (s.thr t).pc = CPc.done) →
      s.counter = 0 ∧ s.sense = true ∧ ∀ t, (s.thr t).ls = false) ∧
    (∀ (n : TreeNode) (ls : Bool) (ks : Nat → Nat) (kp : Nat),
      local_sense_updates n.idx (static_tree_await_events n ls ks kp) ls = !ls) ∧
    (∀ (n : GTreeNode) (ls : Bool) (ks : Nat → Nat) (kg : Nat),
      local_sense_updates n.idx (global_departure_await_events n ls ks kg) ls = !ls) ∧
    (∀ e : Nat, (fun b => !b)^[e] false = epOdd e) := by
  refine ⟨?_, ?_, ?_, ?_, static_tree_await_flips, global_departure_await_flips,
    flip_iterate_parity⟩
  · intro N E s hreach t
    obtain ⟨r, -, -, hls, -, -, -, -⟩ := CInv_reachable hreach
    exact hls t
  · intro N E s hN hreach hdone
    exact centralized_terminal hN hreach hdone
  · intro s hreach hdone
    obtain ⟨h1, h2, h3⟩ := centralized_terminal (by omega) hreach hdone
    exact ⟨h1, h2, fun t => (h3 t).1⟩
  · intro s hreach hdone
    obtain ⟨h1, h2, h3⟩ := centralized_terminal (by omega) hreach hdone
    exact ⟨h1, h2, fun t => (h3 t).1⟩

/-- Witness for `sense_alternation_round_trip`: an explicit ten-step run of
one thread through two episodes ends with counter 0, sense `true`, and local
sense back to `false`, and the tree-barrier flip clause evaluates at a
concrete root node. -/
theorem sense_alternation_round_trip_witness :
    CReach 1 2 c4s10 ∧ c4s10.counter = 0 ∧ c4s10.sense = senseOfRound 2 ∧
      (∀ t, (c4s10.thr t).ls = epOdd 2 ∧ (c4s10.thr t).ep = 2) ∧
      local_sense_updates 0
        (static_tree_await_events ⟨0, none, 0, []⟩ false (fun _ => 0) 0) false = true := by
  have hreach : CReach 1 2 c4s10 :=
    Relation.ReflTransGen.head
      (show CStep 1 2 c4s0 c4s1 from CStep.arrive c4s0 0 rfl)
      (Relation.ReflTransGen.head
        (show CStep 1 2 c4s1 c4s2 from CStep.syncld c4s1 0 rfl)
        (Relation.ReflTransGen.head
          (show CStep 1 2 c4s2 c4s3 from CStep.reset c4s2 0 rfl)
          (Relation.ReflTransGen.head
            (show CStep 1 2 c4s3 c4s4 from CStep.signal c4s3 0 rfl)
            (Relation.ReflTransGen.head
              (show CStep 1 2 c4s4 c4s5 from CStep.flip c4s4 0 rfl)
              (Relation.ReflTransGen.head
                (show CStep 1 2 c4s5 c4s6 from CStep.arrive c4s5 0 rfl)
                (Relation.ReflTransGen.head
                  (show CStep 1 2 c4s6 c4s7 from CStep.syncld c4s6 0 rfl)
                  (Relation.ReflTransGen.head
                    (show CStep 1 2 c4s7 c4s8 from CStep.reset c4s7 0 rfl)
                    (Relation.ReflTransGen.head
                      (show CStep 1 2 c4s8 c4s9 from CStep.signal c4s8 0 rfl)
                      (Relation.ReflTransGen.head
                        (show CStep 1 2 c4s9 c4s10 from CStep.flip c4s9 0 rfl)
                        Relation.ReflTransGen.refl)))))))))
  have hdone : ∀ t, (c4s10.thr t).pc = CPc.done := by
    intro t
    rw [Subsingleton.elim t (0 : Fin 1)]
    rfl
  refine ⟨hreach, ?_⟩
  obtain ⟨h1, h2, h3⟩ :=
    (sense_alternation_round_trip.2.1 : ∀ (N E : Nat) (s : CState N), 1 ≤ N →
      CReach N E s → (∀ t, (s.thr t).pc = CPc.done) →
      s.counter = 0 ∧ s.sense = senseOfRound E ∧
        ∀ t, (s.thr t).ls = epOdd E ∧ (s.thr t).ep = E)
      1 2 c4s10 (by omega) hreach hdone
  refine ⟨h1, h2, h3, ?_⟩
  have := sense_alternation_round_trip.2.2.2.2.1 ⟨0, none, 0, []⟩ false (fun _ => 0) 0
  exact this

/-- C5: for every `N` in 1..8 the good-locality builders (local-departure and
global-departure) produce exactly the literal arrival-tree shapes listed in
the spec: node 0 is the root with a null arrival parent, every non-root
node's `arrival_parent` points to an in-range slot of its parent's slot
array, no two children share a slot, the children by slot are the listed
ones for both builders, and each node's departure-children list targets
exactly the `sense` cells of its arrival children (as a permutation). -/
theorem static_tree_layout_good_locality_shapes (N : Nat) (h1 : 1 ≤ N) (h8 : N ≤ 8) :
    ∀ (L : Layout) (G : GLayout),
      static_tree_layout_good_locality N = some L →
      static_tree_global_departure_layout_good_locality N = some G →
      L.n = N ∧ G.n = N ∧ G.ap = L.ap ∧ G.nslots = L.nslots ∧
      (List.range N).map (children_by_slot L.n L.ap L.nslots) = spec_good_shape N ∧
      L.ap.getD 0 none = none ∧
      (∀ c, c < N → c ≠ 0 → slot_in_range L N c = true) ∧
      ((List.range N).filterMap (fun c => L.ap.getD c none)).Nodup ∧
      (∀ p, p < N → (L.ds.getD p []).Perm (children_by_slot L.n L.ap L.nslots p)) := by
  interval_cases N <;>
    (intro L G hL hG
     injection hL with hL
     injection hG with hG
     subst hL
     subst hG
     decide)

/-- Witness for `static_tree_layout_good_locality_shapes` at `N = 8`: the
computed children lists equal the spec's literal shape, and node 0's
departure list `[2, 4]` is a permutation of its arrival children `[4, 2]`. -/
theorem static_tree_layout_good_locality_shapes_witness :
    (List.range 8).map
        (children_by_slot good_layout_8.n good_layout_8.ap good_layout_8.nslots) =
      spec_good_shape 8 ∧
    (good_layout_8.ds.getD 0 []).Perm
      (children_by_slot good_layout_8.n good_layout_8.ap good_layout_8.nslots 0) :=
  ⟨((static_tree_layout_good_locality_shapes 8 (by decide) (by decide)
      good_layout_8 gd_layout_8 rfl rfl).2.2.2.2.1),
   ((static_tree_layout_good_locality_shapes 8 (by decide) (by decide)
      good_layout_8 gd_layout_8 rfl rfl).2.2.2.2.2.2.2.2 0 (by decide))⟩

/-- C8: for every participant count outside 1..8 all three tree builders hit
`assert(0)` and abort (modelled as `none`). -/
theorem tree_layout_out_of_range (N : Nat) (h : ¬ (1 ≤ N ∧ N ≤ 8)) :
    static_tree_layout_good_locality N = none ∧
    static_tree_layout_bad_locality N = none ∧
    static_tree_global_departure_layout_good_locality N = none := by
  match N with
  | 0 => exact ⟨rfl, rfl, rfl⟩
  | 1 => exact absurd (by decide) h
  | 2 => exact absurd (by decide) h
  | 3 => exact absurd (by decide) h
  | 4 => exact absurd (by decide) h
  | 5 => exact absurd (by decide) h
  | 6 => exact absurd (by decide) h
  | 7 => exact absurd (by decide) h
  | 8 => exact absurd (by decide) h
  | (k + 9) => exact ⟨rfl, rfl, rfl⟩

/-- Witness for `tree_layout_out_of_range`: building a tree with `N = 9`
aborts in all three builders. -/
theorem tree_layout_out_of_range_witness :
    static_tree_layout_good_locality 9 = none ∧
    static_tree_layout_bad_locality 9 = none ∧
    static_tree_global_departure_layout_good_locality 9 = none :=
  tree_layout_out_of_range 9 (by decide)

lemma depthP_transport (par1 par2 : Nat → Option Nat) (n : Nat) (πf : Nat → Nat)
    (hb : ∀ i, i < n → ∀ p, par1 i = some p → p < n)
    (hiso : ∀ i, i < n → par2 (πf i) = (par1 i).map πf) :
    ∀ fuel i, i < n → depthP par2 fuel (πf i) = depthP par1 fuel i := by
  intro fuel
  induction fuel with
  | zero => intro i _; rfl
  | succ fuel ih =>
      intro i hi
      show (match par2 (πf i) with
        | none => 0
        | some p => depthP par2 fuel p + 1) =
        (match par1 i with
        | none => 0
        | some p => depthP par1 fuel p + 1)
      rw [hiso i hi]
      cases hpar : par1 i with
      | none => rfl
      | some p =>
          show depthP par2 fuel (πf p) + 1 = depthP par1 fuel p + 1
          rw [ih p (hb i hi p hpar)]

lemma map_getD_range (l : List Nat) :
    (List.range l.length).map (fun i => l.getD i 0) = l := by
  induction l with
  | nil => rfl
  | cons a l ih =>
      rw [List.length_cons, List.range_succ_eq_map, List.map_cons, List.map_map]
      have hcomp : ((fun i => (a :: l).getD i 0) ∘ Nat.succ) = fun i => l.getD i 0 := by
        funext i; rfl
      rw [hcomp, ih]
      rfl

lemma perm_range_of_nodup (π : List Nat) (n : Nat) (hlen : π.length = n)
    (hnd : π.Nodup) (hb : ∀ x, x ∈ π → x < n) : π.Perm (List.range n) := by
  have hsub : π.toFinset ⊆ (List.range n).toFinset := by
    intro x hx
    rw [List.mem_toFinset] at hx
    rw [List.mem_toFinset, List.mem_range]
    exact hb x hx
  have hcard : (List.range n).toFinset.card ≤ π.toFinset.card := by
    rw [List.toFinset_card_of_nodup hnd, List.toFinset_card_of_nodup (List.nodup_range n),
      hlen, List.length_range]
  have heq : π.toFinset = (List.range n).toFinset :=
    Finset.eq_of_subset_of_card_le hsub hcard
  exact List.perm_of_nodup_nodup_toFinset_eq hnd (List.nodup_range n) heq

lemma count_at_depth_transport (L1 L2 : Layout) (π : List Nat) (h : iso_by L1 L2 π)
    (hb : ∀ i, i < L1.n → ∀ p, parent_idx L1 i = some p → p < L1.n) :
    ∀ d, count_at_depth L2 d = count_at_depth L1 d := by
  obtain ⟨hn, hlen, hnd, hbound, hpar⟩ := h
  intro d
  have htrans : ∀ i, i < L1.n →
      depthP (parent_idx L2) L1.n (π.getD i 0) = depthP (parent_idx L1) L1.n i := by
    intro i hi
    refine depthP_transport (parent_idx L1) (parent_idx L2) L1.n (fun i => π.getD i 0)
      hb ?_ L1.n i hi
    intro j hj
    exact hpar j hj
  have hperm : π.Perm (List.range L1.n) := perm_range_of_nodup π L1.n hlen hnd hbound
  have hmap : (List.range L1.n).map (fun i => π.getD i 0) = π := by
    have := map_getD_range π
    rw [hlen] at this
    exact this
  simp only [count_at_depth, depth_of, ← hn]
  calc (List.range L1.n).countP (fun i => depthP (parent_idx L2) L1.n i == d)
      = π.countP (fun i => depthP (parent_idx L2) L1.n i == d) :=
        (hperm.countP_eq _).symm
    _ = ((List.range L1.n).map (fun i => π.getD i 0)).countP
          (fun i => depthP (parent_idx L2) L1.n i == d) := by rw [hmap]
    _ = (List.range L1.n).countP
          (fun i => depthP (parent_idx L2) L1.n (π.getD i 0) == d) := by
        rw [List.countP_map]
        rfl
    _ = (List.range L1.n).countP (fun i => depthP (parent_idx L1) L1.n i == d) := by
        apply List.countP_congr
        intro i hi
        rw [List.mem_range] at hi
        rw [htrans i hi]

/-- Counterexample to C6: the good-locality tree for `N = 3` has depth 1
while `⌈log₂ 3⌉ = 2`, for `N = 7` good locality has depth 2 while bad
locality has depth 3, and for `N = 8` the two layouts put a different number
of nodes at depth 2 (4 versus 3), so they are not the same shape. -/
theorem tree_layout_shape_counterexample :
    tree_depth good_layout_3 = 1 ∧ Nat.clog 2 3 = 2 ∧
    tree_depth good_layout_7 = 2 ∧ tree_depth bad_layout_7 = 3 ∧
    count_at_depth good_layout_8 2 = 4 ∧ count_at_depth bad_layout_8 2 = 3 := by
  refine ⟨by decide, ?_, by decide, by decide, by decide, by decide⟩
  rw [Nat.clog_of_two_le (by norm_num) (by norm_num)]
  rw [show (3 + 2 - 1) / 2 = 2 by norm_num]
  rw [Nat.clog_of_two_le (by norm_num) (by norm_num)]
  rw [show (2 + 2 - 1) / 2 = 1 by norm_num]
  rw [Nat.clog_one_right]

/-- C6 (amended): for every `N` in 1..8 the good- and bad-locality layouts
are binary trees (at most two arrival slots per node) with the same edge
count `N - 1`; the good layout has depth `⌊log₂ N⌋`; the bad layout also has
depth `⌊log₂ N⌋` except at `N = 7`, where its depth is 3; the two layouts
are related by a permutation of participant indices for `N ≤ 6`, but for
`N ∈ {7, 8}` no permutation carries one onto the other (their level profiles
differ). -/
theorem tree_layout_shape_amended (N : Nat) (h1 : 1 ≤ N) (h8 : N ≤ 8) :
    ∀ (L B : Layout),
      static_tree_layout_good_locality N = some L →
      static_tree_layout_bad_locality N = some B →
      edge_count L = N - 1 ∧ edge_count B = N - 1 ∧
      (∀ i, i < N → L.nslots.getD i 0 ≤ 2) ∧
      (∀ i, i < N → B.nslots.getD i 0 ≤ 2) ∧
      tree_depth L = Nat.log2 N ∧
      tree_depth B = (if N = 7 then 3 else Nat.log2 N) ∧
      (N ≤ 6 → ∃ π, iso_by L B π) ∧
      (7 ≤ N → ¬ ∃ π, iso_by L B π) := by
  interval_cases N <;> intro L B hL hB <;> injection hL with hL <;>
    injection hB with hB <;> subst hL <;> subst hB
  · exact ⟨by decide, by decide, by decide, by decide,
      by rw [show Nat.log2 1 = 0 from by simp [Nat.log2]]; decide,
      by rw [if_neg (by decide), show Nat.log2 1 = 0 from by simp [Nat.log2]]; decide,
      fun _ => ⟨[0], by decide⟩, fun h7 => absurd h7 (by decide)⟩
  · exact ⟨by decide, by decide, by decide, by decide,
      by rw [show Nat.log2 2 = 1 from by simp [Nat.log2]]; decide,
      by rw [if_neg (by decide), show Nat.log2 2 = 1 from by simp [Nat.log2]]; decide,
      fun _ => ⟨[0, 1], by decide⟩, fun h7 => absurd h7 (by decide)⟩
  · exact ⟨by decide, by decide, by decide, by decide,
      by rw [show Nat.log2 3 = 1 from by simp [Nat.log2]]; decide,
      by rw [if_neg (by decide), show Nat.log2 3 = 1 from by simp [Nat.log2]]; decide,
      fun _ => ⟨[0, 1, 2], by decide⟩, fun h7 => absurd h7 (by decide)⟩
  · exact ⟨by decide, by decide, by decide, by decide,
      by rw [show Nat.log2 4 = 2 from by simp [Nat.log2]]; decide,
      by rw [if_neg (by decide), show Nat.log2 4 = 2 from by simp [Nat.log2]]; decide,
      fun _ => ⟨[0, 3, 2, 1], by decide⟩, fun h7 => absurd h7 (by decide)⟩
  · exact ⟨by decide, by decide, by decide, by decide,
      by rw [show Nat.log2 5 = 2 from by simp [Nat.log2]]; decide,
      by rw [if_neg (by decide), show Nat.log2 5 = 2 from by simp [Nat.log2]]; decide,
      fun _ => ⟨[0, 4, 2, 1, 3], by decide⟩, fun h7 => absurd h7 (by decide)⟩
  · exact ⟨by decide, by decide, by decide, by decide,
      by rw [show Nat.log2 6 = 2 from by simp [Nat.log2]]; decide,
      by rw [if_neg (by decide), show Nat.log2 6 = 2 from by simp [Nat.log2]]; decide,
      fun _ => ⟨[0, 1, 3, 4, 2, 5], by decide⟩, fun h7 => absurd h7 (by decide)⟩
  · refine ⟨by decide, by decide, by decide, by decide,
      by rw [show Nat.log2 7 = 2 from by simp [Nat.log2]]; decide,
      by rw [if_pos rfl]; decide,
      fun h6 => absurd h6 (by decide), fun _ => ?_⟩
    rintro ⟨π, hiso⟩
    have hb : ∀ i, i < good_layout_7.n → ∀ p,
        parent_idx good_layout_7 i = some p → p < good_layout_7.n := by
      intro i hi p hpar
      have hi7 : i < 7 := hi
      interval_cases i <;> first
        | (injection hpar with hp; rw [← hp]; decide)
        | injection hpar
    have h3 := count_at_depth_transport good_layout_7 bad_layout_7 π hiso hb 3
    rw [show count_at_depth bad_layout_7 3 = 1 from by decide,
      show count_at_depth good_layout_7 3 = 0 from by decide] at h3
    exact absurd h3 (by decide)
  · refine ⟨by decide, by decide, by decide, by decide,
      by rw [show Nat.log2 8 = 3 from by simp [Nat.log2]]; decide,
      by rw [if_neg (by decide), show Nat.log2 8 = 3 from by simp [Nat.log2]]; decide,
      fun h6 => absurd h6 (by decide), fun _ => ?_⟩
    rintro ⟨π, hiso⟩
    have hb : ∀ i, i < good_layout_8.n → ∀ p,
        parent_idx good_layout_8 i = some p → p < good_layout_8.n := by
      intro i hi p hpar
      have hi8 : i < 8 := hi
      interval_cases i <;> first
        | (injection hpar with hp; rw [← hp]; decide)
        | injection hpar
    have h2 := count_at_depth_transport good_layout_8 bad_layout_8 π hiso hb 2
    rw [show count_at_depth bad_layout_8 2 = 3 from by decide,
      show count_at_depth good_layout_8 2 = 4 from by decide] at h2
    exact absurd h2 (by decide)

/-- Witness for `tree_layout_shape_amended` at `N = 6` (a permutation exists)
and at `N = 7` (edge counts still agree while depth differs). -/
theorem tree_layout_shape_amended_witness :
    (∃ π, iso_by good_layout_6 bad_layout_6 π) ∧
    edge_count good_layout_7 = 6 ∧ edge_count bad_layout_7 = 6 ∧
    tree_depth bad_layout_7 = 3 := by
  obtain ⟨-, -, -, -, -, -, hiso, -⟩ :=
    tree_layout_shape_amended 6 (by decide) (by decide) good_layout_6 bad_layout_6 rfl rfl
  obtain ⟨he1, he2, -, -, -, hd, -, -⟩ :=
    tree_layout_shape_amended 7 (by decide) (by decide) good_layout_7 bad_layout_7 rfl rfl
  refine ⟨hiso (by decide), he1, he2, ?_⟩
  rw [hd, if_pos rfl]

lemma tree_root_invariant_step {L : Layout} (h1 : root_sense_unwritten L)
    (h2 : L.ap.getD 0 none = none) {s s' : TreeState} (hstep : TreeStep L s s')
    (hinv : s.senses 0 = true ∧ s.pc 0 ≠ TPc.dspin) :
    s'.senses 0 = true ∧ s'.pc 0 ≠ TPc.dspin := by
  obtain ⟨hsense, hpc0⟩ := hinv
  cases hstep with
  | awNext i hi k hpc hk =>
      refine ⟨hsense, ?_⟩
      dsimp only
      by_cases hij : (0 : Nat) = i
      · rw [← hij, Function.update_same]; decide
      · rw [Function.update_noteq hij]; exact hpc0
  | awFail i hi k hpc hk hne => exact ⟨hsense, hpc0⟩
  | awPass i hi k hpc hk heq =>
      refine ⟨hsense, ?_⟩
      dsimp only
      by_cases hij : (0 : Nat) = i
      · rw [← hij, Function.update_same]
        exact fun hx => TPc.noConfusion hx
      · rw [Function.update_noteq hij]; exact hpc0
  | parSome i hi p sl hpc hap =>
      refine ⟨hsense, ?_⟩
      dsimp only
      by_cases hij : (0 : Nat) = i
      · rw [← hij] at hap
        rw [h2] at hap
        exact absurd hap (by simp)
      · rw [Function.update_noteq hij]; exact hpc0
  | parNone i hi hpc hap =>
      refine ⟨hsense, ?_⟩
      dsimp only
      by_cases hij : (0 : Nat) = i
      · rw [← hij, Function.update_same]; decide
      · rw [Function.update_noteq hij]; exact hpc0
  | dspinFail i hi hpc hne => exact ⟨hsense, hpc0⟩
  | dspinPass i hi hpc heq =>
      refine ⟨hsense, ?_⟩
      dsimp only
      by_cases hij : (0 : Nat) = i
      · rw [← hij, Function.update_same]; decide
      · rw [Function.update_noteq hij]; exact hpc0
  | depStore i hi j hpc hj =>
      constructor
      · dsimp only
        have hd : (L.ds.getD i []).getD j 0 ∈ L.ds.getD i [] := by
          rw [List.getD_eq_getElem (L.ds.getD i []) 0 hj]
          exact List.getElem_mem hj
        have hne0 : (L.ds.getD i []).getD j 0 ≠ 0 := fun h0 =>
          h1 i hi (h0 ▸ hd)
        rw [Function.update_noteq (fun h0 => hne0 h0.symm)]
        exact hsense
      · dsimp only
        by_cases hij : (0 : Nat) = i
        · rw [← hij, Function.update_same]
          exact fun hx => TPc.noConfusion hx
        · rw [Function.update_noteq hij]; exact hpc0
  | depNext i hi j hpc hj =>
      refine ⟨hsense, ?_⟩
      dsimp only
      by_cases hij : (0 : Nat) = i
      · rw [← hij, Function.update_same]; decide
      · rw [Function.update_noteq hij]; exact hpc0
  | flip i hi hpc =>
      refine ⟨hsense, ?_⟩
      dsimp only
      by_cases hij : (0 : Nat) = i
      · rw [← hij, Function.update_same]; decide
      · rw [Function.update_noteq hij]; exact hpc0

lemma loadFlag_mem_spinFlagEvents_cell (c c' : TCell) (t v : Bool) (o : MemOrd) (k : Nat)
    (h : TEvent.loadFlag c' v o ∈ spinFlagEvents c t k) : c' = c := by
  simp only [spinFlagEvents, List.mem_append, List.mem_replicate, List.mem_cons] at h
  rcases h with ⟨-, h⟩ | h | h | h
  · injection h with h1 h2 h3
  · injection h with h1 h2 h3
  · injection h with h1 h2 h3
  · exact absurd h (List.not_mem_nil _)

/-- C10: in the local-departure static-tree barrier the root's own
departure-`sense` cell is never read or written.  (a) For any wiring whose
departure lists never name node 0 and whose node 0 has a null arrival
parent, every reachable state of the interleaved machine keeps node 0's
`sense` cell at its initial value `true` and node 0's thread never reaches
the spin-on-own-sense instruction; (b) every layout the builders produce (good
and bad locality, `N` in 1..8) satisfies those two conditions; (c) at the
trace level, the `await` of a root node performs no load and no store of its
own `sense` cell. -/
theorem root_sense_untouched :
    (∀ L : Layout, root_sense_unwritten L → L.ap.getD 0 none = none →
      ∀ s, TreeReach L s → s.senses 0 = true ∧ s.pc 0 ≠ TPc.dspin) ∧
    (∀ N, 1 ≤ N → N ≤ 8 → ∀ L : Layout,
      static_tree_layout_good_locality N = some L ∨
        static_tree_layout_bad_locality N = some L →
      root_sense_unwritten L ∧ L.ap.getD 0 none = none) ∧
    (∀ (n : TreeNode) (ls : Bool) (ks : Nat → Nat) (kp : Nat),
      n.arrival_parent = none → n.idx ∉ n.departure_children → ∀ v o,
      TEvent.loadFlag (TCell.senseCell n.idx) v o ∉
          static_tree_await_events n ls ks kp ∧
        TEvent.storeFlag (TCell.senseCell n.idx) v o ∉
          static_tree_await_events n ls ks kp) := by
  refine ⟨?_, ?_, ?_⟩
  · intro L h1 h2 s hreach
    induction hreach with
    | refl => exact ⟨rfl, fun hx => TPc.noConfusion hx⟩
    | tail hab hbc ih => exact tree_root_invariant_step h1 h2 hbc ih
  · intro N hN1 hN8 L hL
    interval_cases N <;> rcases hL with hL | hL <;> injection hL with hL <;>
      subst hL <;> exact ⟨by decide, by decide⟩
  · intro n ls ks kp hap hnd v o
    constructor
    · intro hmem
      rw [static_tree_await_events, hap] at hmem
      rcases List.mem_append.mp hmem with h | hrest
      · simp only [arrival_phase_events, List.mem_flatMap, List.mem_range] at h
        obtain ⟨i, -, hmemi⟩ := h
        have := loadFlag_mem_spinFlagEvents_cell _ _ _ _ _ _ hmemi
        exact absurd this (by simp)
      · rw [List.nil_append] at hrest
        rcases List.mem_append.mp hrest with h | h
        · obtain ⟨d, -, hd⟩ := List.mem_map.mp h
          exact absurd hd (by simp)
        · rcases List.mem_singleton.mp h with h
          exact absurd h (by simp)
    · intro hmem
      rcases static_tree_store_mem n ls ks kp _ _ _ hmem with
        ⟨p, s, hap', -, -⟩ | ⟨d, hd, hc, -⟩
      · rw [hap] at hap'
        exact Option.noConfusion hap'
      · injection hc with hc
        exact hnd (hc ▸ hd)

/-- Witness for `root_sense_untouched`: the initial state of the `N = 2`
good-locality wiring has the root's sense cell `true`, the builders' facts
hold at `N = 8`, and a concrete root node's trace avoids its own sense cell. -/
theorem root_sense_untouched_witness :
    (TreeInit.senses 0 = true ∧ TreeInit.pc 0 ≠ TPc.dspin) ∧
    (root_sense_unwritten good_layout_8 ∧ good_layout_8.ap.getD 0 none = none) ∧
    TEvent.storeFlag (TCell.senseCell 0) false MemOrd.release ∉
      static_tree_await_events ⟨0, none, 2, [1, 2]⟩ false (fun _ => 0) 0 :=
  ⟨root_sense_untouched.1 good_layout_2 (by decide) (by decide) TreeInit
      Relation.ReflTransGen.refl,
   root_sense_untouched.2.1 8 (by decide) (by decide) good_layout_8 (Or.inl rfl),
   (root_sense_untouched.2.2 ⟨0, none, 2, [1, 2]⟩ false (fun _ => 0) 0 rfl
      (by decide) false MemOrd.release).2⟩

lemma get?_isSome_iff_lt (l : List ℚ) (n : Nat) : (l.get? n).isSome ↔ n < l.length := by
  rw [Option.isSome_iff_exists]
  constructor
  · rintro ⟨a, ha⟩
    exact (List.get?_eq_some.mp ha).1
  · intro h
    exact ⟨l.get ⟨n, h⟩, List.get?_eq_get h⟩

lemma variance_num_nonneg (xs : List ℝ) (m : ℝ) :
    (0 : ℝ) ≤ (xs.map fun x => (x - m) * (x - m)).sum := by
  apply List.sum_nonneg
  intro a ha
  obtain ⟨x, -, hx⟩ := List.mem_map.mp ha
  rw [← hx]
  exact mul_self_nonneg _

/-- Counterexample to C7: for the spec's ten samples the unbiased sample
variance is `28/9`, not `32/9` (deviations 0, 2, -2, 1, -1, 0, 3, -3, 0, 0
have squared sum 28), and the multiplier the code reads for ten samples is
`t_critical_value[9] = 4.587` (the tabulated value for 10 degrees of
freedom), not `4.781 = t_{0.999,9}`. -/
theorem confidence_interval_example_counterexample :
    spec_unbiased_variance ci_samples10 = 28 / 9 ∧ (28 / 9 : ℝ) ≠ 32 / 9 ∧
    t_critical_value.get? (size_t_sub_one ci_samples10.length) = some (4587/1000) ∧
    (4587/1000 : ℚ) ≠ 4781/1000 := by
  have hmean : spec_sample_mean ci_samples10 = 100 := by
    rw [spec_sample_mean, ci_samples10]
    norm_num
  refine ⟨?_, by norm_num, ?_, by norm_num⟩
  · rw [spec_unbiased_variance, hmean, ci_samples10]
    norm_num
  · rw [show size_t_sub_one ci_samples10.length = 9 from by
      rw [show ci_samples10.length = 10 from rfl]; rw [size_t_sub_one]; norm_num]
    rw [t_critical_value]
    norm_num

/-- C7 (amended): for every sample list with `2 ≤ n ≤ 30`, `mean()` returns
`(m - h, m, m + h)` where `m` is the sample mean, `s²` the unbiased sample
variance, and `h = t · √(s²/n)` with `t = t_critical_value[n - 1]` — i.e. the
tabulated critical value for `n` degrees of freedom, one row past the
`n - 1` the table's own comment prescribes; in particular for the samples
{100, 102, 98, 101, 99, 100, 103, 97, 100, 100} the mean is 100, the
unbiased variance is 28/9, and the margin is `4.587 · √(28/90)`. -/
theorem confidence_interval_mean_amended :
    (∀ xs : List ℝ, 2 ≤ xs.length → xs.length ≤ 30 →
      ∃ t : ℚ, t_critical_value.get? (xs.length - 1) = some t ∧
        confidence_interval_mean xs = some
          (spec_sample_mean xs -
             (t : ℝ) * Real.sqrt (spec_unbiased_variance xs / (xs.length : ℝ)),
           spec_sample_mean xs,
           spec_sample_mean xs +
             (t : ℝ) * Real.sqrt (spec_unbiased_variance xs / (xs.length : ℝ)))) ∧
    confidence_interval_mean ci_samples10 = some
      (100 - (4587/1000 : ℝ) * Real.sqrt (28 / 90), 100,
       100 + (4587/1000 : ℝ) * Real.sqrt (28 / 90)) := by
  have hgen : ∀ xs : List ℝ, 2 ≤ xs.length → xs.length ≤ 30 →
      ∃ t : ℚ, t_critical_value.get? (xs.length - 1) = some t ∧
        confidence_interval_mean xs = some
          (spec_sample_mean xs -
             (t : ℝ) * Real.sqrt (spec_unbiased_variance xs / (xs.length : ℝ)),
           spec_sample_mean xs,
           spec_sample_mean xs +
             (t : ℝ) * Real.sqrt (spec_unbiased_variance xs / (xs.length : ℝ))) := by
    intro xs h2 h30
    have hn1 : 1 ≤ xs.length := by omega
    have hlt : xs.length - 1 < t_critical_value.length := by
      rw [show t_critical_value.length = 30 from rfl]
      omega
    have hs1 : size_t_sub_one xs.length = xs.length - 1 := by
      rw [size_t_sub_one]
      omega
    refine ⟨t_critical_value.get ⟨xs.length - 1, hlt⟩, List.get?_eq_get hlt, ?_⟩
    have hcast : ((xs.length - 1 : Nat) : ℝ) = (xs.length : ℝ) - 1 := by
      rw [Nat.cast_sub hn1, Nat.cast_one]
    have hvar : ((xs.map fun x => (x - spec_sample_mean xs) *
        (x - spec_sample_mean xs)).sum) / ((size_t_sub_one xs.length : Nat) : ℝ) =
        spec_unbiased_variance xs := by
      rw [hs1, hcast, spec_unbiased_variance]
    have hnn : (0 : ℝ) ≤ spec_unbiased_variance xs := by
      rw [spec_unbiased_variance]
      apply div_nonneg (variance_num_nonneg xs _)
      have : (2 : ℝ) ≤ (xs.length : ℝ) := by exact_mod_cast h2
      linarith
    have hnn2 : (0 : ℝ) ≤
        ((xs.map fun x => (x - xs.sum / (xs.length : ℝ)) *
          (x - xs.sum / (xs.length : ℝ))).sum) / ((xs.length : ℝ) - 1) := by
      apply div_nonneg (variance_num_nonneg xs _)
      have hx : (2 : ℝ) ≤ (xs.length : ℝ) := by exact_mod_cast h2
      linarith
    rw [confidence_interval_mean, hs1, List.get?_eq_get hlt, Option.map_some']
    simp only [spec_sample_mean, spec_unbiased_variance]
    rw [hs1, hcast]
    rw [Real.sqrt_div hnn2]
  refine ⟨hgen, ?_⟩
  have hlen : ci_samples10.length = 10 := rfl
  obtain ⟨t, ht, heq⟩ := hgen ci_samples10 (by rw [hlen]; omega) (by rw [hlen]; omega)
  rw [hlen] at ht
  have hx : t_critical_value.get? (10 - 1) = some (4587/1000 : ℚ) := by
    rw [t_critical_value]
    norm_num
  rw [hx] at ht
  have ht' : t = 4587/1000 := (Option.some.inj ht).symm
  subst ht'
  rw [heq]
  have hmean : spec_sample_mean ci_samples10 = 100 := by
    rw [spec_sample_mean, ci_samples10]
    norm_num
  have hvar : spec_unbiased_variance ci_samples10 = 28 / 9 := by
    rw [spec_unbiased_variance, hmean, ci_samples10]
    norm_num
  rw [hmean, hvar, hlen]
  rw [show ((28 : ℝ) / 9) / ((10 : Nat) : ℝ) = 28 / 90 from by push_cast; ring]
  norm_num

/-- Witness for `confidence_interval_mean_amended` at the two-sample list
`[1, 2]`: mean `3/2`, unbiased variance `1/2`, multiplier
`t_critical_value[1] = 31.60`. -/
theorem confidence_interval_mean_amended_witness :
    confidence_interval_mean [(1 : ℝ), 2] = some
      (3 / 2 - (3160/100 : ℝ) * Real.sqrt ((1 / 2) / 2), 3 / 2,
       3 / 2 + (3160/100 : ℝ) * Real.sqrt ((1 / 2) / 2)) := by
  obtain ⟨t, ht, heq⟩ :=
    confidence_interval_mean_amended.1 [(1 : ℝ), 2] (by norm_num) (by norm_num)
  have hx : t_critical_value.get? ([(1 : ℝ), 2].length - 1) = some (3160/100 : ℚ) := by
    rw [show [(1 : ℝ), 2].length = 2 from rfl, t_critical_value]
    norm_num
  rw [hx] at ht
  have ht' : t = 3160/100 := (Option.some.inj ht).symm
  subst ht'
  rw [heq]
  have hmean : spec_sample_mean [(1 : ℝ), 2] = 3 / 2 := by
    rw [spec_sample_mean]
    norm_num
  have hvar : spec_unbiased_variance [(1 : ℝ), 2] = 1 / 2 := by
    rw [spec_unbiased_variance, hmean]
    norm_num
  rw [hmean, hvar]
  norm_num

/-- Counterexample to C9's sub-claim that the variance divides by zero for
every `n < 2`: at `n = 0` the `size_t` computation `samples.size() - 1` wraps
to `2^64 - 1`, so the variance divisor is the nonzero `2^64 - 1` (it is the
mean's divisor `n = 0` that is zero there). -/
theorem confidence_interval_zero_samples_counterexample :
    size_t_sub_one 0 = 2 ^ 64 - 1 ∧ ((size_t_sub_one 0 : Nat) : ℝ) ≠ 0 ∧ (0 : Nat) = 0 := by
  have h0 : size_t_sub_one 0 = 2 ^ 64 - 1 := by
    rw [size_t_sub_one]
    norm_num
  refine ⟨h0, ?_, rfl⟩
  rw [h0]
  rw [Ne, Nat.cast_eq_zero]
  norm_num

/-- C9 (amended): `add` appends unconditionally; the critical-value table has
30 entries and the index `size_t(n - 1)` is in bounds iff `1 ≤ n ≤ 30` (for
any realistic `n < 2^64`), so `mean()` reads past the table for every
`n > 30` and for `n = 0` (where the index wraps to `2^64 - 1`); the variance
divisor `size_t(n - 1)` is zero exactly at `n = 1`, while at `n = 0` the mean's
divisor `n` is zero instead; hence `2 ≤ n ≤ 30` is the precondition under
which `mean()` is well-defined. -/
theorem confidence_interval_bounds_amended :
    (∀ (s : List ℝ) (v : ℝ), (confidence_interval_add s v).length = s.length + 1) ∧
    t_critical_value.length = 30 ∧
    (∀ n : Nat, n < 2 ^ 64 →
      ((t_critical_value.get? (size_t_sub_one n)).isSome ↔ 1 ≤ n ∧ n ≤ 30)) ∧
    (∀ n : Nat, n < 2 ^ 64 →
      (((size_t_sub_one n : Nat) : ℝ) = 0 ↔ n = 1)) ∧
    (∀ n : Nat, ((n : ℝ) = 0 ↔ n = 0)) := by
  refine ⟨?_, rfl, ?_, ?_, ?_⟩
  · intro s v
    rw [confidence_interval_add, List.length_append, List.length_singleton]
  · intro n hn
    rw [get?_isSome_iff_lt, show t_critical_value.length = 30 from rfl, size_t_sub_one]
    omega
  · intro n hn
    rw [Nat.cast_eq_zero, size_t_sub_one]
    omega
  · intro n
    rw [Nat.cast_eq_zero]

/-- Witness for `confidence_interval_bounds_amended`: one `add` call grows a
singleton to two samples, `n = 10` is in bounds, `n = 31` is out of bounds,
and the variance divisor is zero at `n = 1`. -/
theorem confidence_interval_bounds_amended_witness :
    (confidence_interval_add [(5 : ℝ)] 7).length = 2 ∧
    (t_critical_value.get? (size_t_sub_one 10)).isSome = true ∧
    ¬ (t_critical_value.get? (size_t_sub_one 31)).isSome = true ∧
    ((size_t_sub_one 1 : Nat) : ℝ) = 0 := by
  refine ⟨confidence_interval_bounds_amended.1 [(5 : ℝ)] 7, ?_, ?_, ?_⟩
  · rw [(confidence_interval_bounds_amended.2.2.1 10 (by norm_num))]
    omega
  · rw [show ((t_critical_value.get? (size_t_sub_one 31)).isSome = true) ↔
        (1 ≤ 31 ∧ 31 ≤ 30) from
      by rw [confidence_interval_bounds_amended.2.2.1 31 (by norm_num)]]
    omega
  · rw [confidence_interval_bounds_amended.2.2.2.1 1 (by norm_num)]
